import Mathlib

/-!
# A shallow embedding of `vm.c` (demand-paged virtual memory manager)

The C program keeps its whole machine state in global variables and runs one
loop over the logical addresses read from a file.  The embedding below turns

* every global array into a total function `Int → α` (the C index is an `int`),
* every C `int` into an unbounded `Int` (no counter of the program can leave
  the 32-bit range before about two thousand million accesses); the one
  product that can leave it earlier, `100 * count` in the statistics, is
  wrapped to 32 bits (`wrap32`),
* every `for` loop into a structurally recursive function whose first numeric
  argument is the number of iterations still to run and whose second one is
  the loop variable,
* the two build-time switches `USE_LRU_TLB` and `USE_LRU_PAGE_T` into boolean
  parameters.

The backing store is a function from file offsets to (signed) byte values; a
page read is taken to deliver the full 256 bytes.
-/

namespace VM

/-! ## Constants (`#define`s of the source) -/

/-- Number of entries of the page table. -/
def PAGE_TABLE_SIZE : Nat := 256

/-- Number of frames of physical memory. -/
def NUMBER_OF_FRAMES : Nat := 128

/-- Number of entries of the TLB. -/
def TLB_SIZE : Nat := 16

/-- The constant `__INT32_MAX__`. -/
def INT32_MAX : Int := 2147483647

/-! ## Data model -/

/-- An entry in the TLB (`struct tlb_entry`). -/
structure tlb_entry where
  page_number : Int
  frame_number : Int
  valid : Int
  age : Int

/-- The global variables of the program, together with the three statistics
counters that `main` keeps in local variables. -/
structure State where
  physical_memory : Int → Int
  page_table : Int → Int
  free_frame_list : Int → Int
  next_free_frame : Int
  tlb_next : Int
  elapsed_time : Int
  next_frame_to_evict : Int
  frame_age : Int → Int
  tlb : Int → tlb_entry
  page_faults : Int
  TLB_hits : Int
  total_access : Int

/-- What one iteration of the main loop prints, plus the frame it used. -/
structure Access where
  logical_address : Int
  frame_number : Int
  physical_address : Int
  value : Int

/-- Array store `a[i] = v`. -/
def arr_set {α : Type} (a : Int → α) (i : Int) (v : α) : Int → α :=
  fun j => if j = i then v else a j

/-! ## The TLB -/

/-- The loop of `tlb_lookup`: `n` iterations left, loop variable `i`. -/
def tlb_lookup_loop (tlb : Int → tlb_entry) (elapsed_time page_number : Int) :
    Nat → Int → (Int → tlb_entry) × Int
  | 0, _ => (tlb, -1)
  | n + 1, i =>
    if (tlb i).valid ≠ 0 ∧ (tlb i).page_number = page_number then
      (arr_set tlb i { tlb i with age := elapsed_time }, (tlb i).frame_number)
    else
      tlb_lookup_loop tlb elapsed_time page_number n (i + 1)

/-- The function `tlb_lookup`: the new state and the returned frame (`-1` on a miss). -/
def tlb_lookup (s : State) (page_number : Int) : State × Int :=
  ({ s with tlb := (tlb_lookup_loop s.tlb s.elapsed_time page_number TLB_SIZE 0).1 },
    (tlb_lookup_loop s.tlb s.elapsed_time page_number TLB_SIZE 0).2)

/-- The function `tlb_insert` (FIFO): overwrite the slot under the cursor, advance the cursor. -/
def tlb_insert (s : State) (page_number frame_number : Int) : State :=
  { s with
    tlb := arr_set s.tlb s.tlb_next
      { s.tlb s.tlb_next with
        valid := 1, page_number := page_number, frame_number := frame_number }
    tlb_next := Int.tmod (s.tlb_next + 1) TLB_SIZE }

/-- The four stores `tlb[i].valid = 1; ... tlb[i].age = elapsed_time`. -/
def tlb_write (s : State) (i page_number frame_number : Int) : State :=
  { s with
    tlb := arr_set s.tlb i
      { page_number := page_number, frame_number := frame_number, valid := 1,
        age := s.elapsed_time } }

/-- The loop of `tlb_insert_lru` followed by the code after it: `n` iterations
left, loop variable `i`, and the two locals `lowest_age`, `lowest_age_index`. -/
def tlb_insert_lru_loop (s : State) (page_number frame_number : Int) :
    Nat → Int → Int → Int → State
  | 0, _, _, lowest_age_index => tlb_write s lowest_age_index page_number frame_number
  | n + 1, i, lowest_age, lowest_age_index =>
    if (s.tlb i).valid = 0 then
      tlb_write s i page_number frame_number
    else if (s.tlb i).age < lowest_age then
      tlb_insert_lru_loop s page_number frame_number n (i + 1) (s.tlb i).age i
    else
      tlb_insert_lru_loop s page_number frame_number n (i + 1) lowest_age lowest_age_index

/-- The function `tlb_insert_lru`. -/
def tlb_insert_lru (s : State) (page_number frame_number : Int) : State :=
  tlb_insert_lru_loop s page_number frame_number TLB_SIZE 0 INT32_MAX 0

/-! ## Victim selection and invalidation -/

/-- The function `select_victim_frame_fifo`. -/
def select_victim_frame_fifo (s : State) : State × Int :=
  ({ s with next_frame_to_evict := Int.tmod (s.next_frame_to_evict + 1) NUMBER_OF_FRAMES },
    s.next_frame_to_evict)

/-- The loop of `select_victim_frame_lru`: `n` iterations left, loop variable
`i`, locals `oldest_age` and `oldest_frame`. -/
def select_victim_frame_lru_loop (frame_age : Int → Int) : Nat → Int → Int → Int → Int
  | 0, _, _, oldest_frame => oldest_frame
  | n + 1, i, oldest_age, oldest_frame =>
    if frame_age i < oldest_age then
      select_victim_frame_lru_loop frame_age n (i + 1) (frame_age i) i
    else
      select_victim_frame_lru_loop frame_age n (i + 1) oldest_age oldest_frame

/-- The function `select_victim_frame_lru` (it changes no global). -/
def select_victim_frame_lru (s : State) : Int :=
  select_victim_frame_lru_loop s.frame_age (NUMBER_OF_FRAMES - 1) 1 (s.frame_age 0) 0

/-- The inner loop of `invalidate_frame` over the TLB. -/
def invalidate_tlb_loop (page : Int) : Nat → Int → (Int → tlb_entry) → (Int → tlb_entry)
  | 0, _, tlb => tlb
  | n + 1, i, tlb =>
    if (tlb i).valid ≠ 0 ∧ (tlb i).page_number = page then
      invalidate_tlb_loop page n (i + 1) (arr_set tlb i { tlb i with valid := 0 })
    else
      invalidate_tlb_loop page n (i + 1) tlb

/-- The outer loop of `invalidate_frame` over the page table, with its `break`. -/
def invalidate_frame_loop (s : State) (victim_frame : Int) : Nat → Int → State
  | 0, _ => s
  | n + 1, page =>
    if s.page_table page = victim_frame then
      { s with
        page_table := arr_set s.page_table page (-1)
        tlb := invalidate_tlb_loop page TLB_SIZE 0 s.tlb }
    else
      invalidate_frame_loop s victim_frame n (page + 1)

/-- The function `invalidate_frame`. -/
def invalidate_frame (s : State) (victim_frame : Int) : State :=
  invalidate_frame_loop s victim_frame PAGE_TABLE_SIZE 0

/-! ## The main loop -/

/-- The expression `(logical_address >> 8) & 0xFF`. -/
def page_number_of (logical_address : Int) : Int :=
  Int.land (logical_address >>> 8) 0xFF

/-- The expression `logical_address & 0xFF`. -/
def offset_of (logical_address : Int) : Int :=
  Int.land logical_address 0xFF

/-- The pair `fseek(backing_store, page_number * 256, SEEK_SET)`,
`fread(physical_memory + frame_number * 256, 1, 256, backing_store)`, for a
read that delivers all 256 bytes. -/
def fread_page (backing_store physical_memory : Int → Int)
    (page_number frame_number : Int) : Int → Int :=
  fun a =>
    if frame_number * 256 ≤ a ∧ a < frame_number * 256 + 256 then
      backing_store (page_number * 256 + (a - frame_number * 256))
    else physical_memory a

/-- Lines 212-218 of `main`: hand out the next free frame, or select a victim
and invalidate it. -/
def get_frame (USE_LRU_PAGE_T : Bool) (s : State) : State × Int :=
  if s.next_free_frame < NUMBER_OF_FRAMES then
    ({ s with next_free_frame := s.next_free_frame + 1 }, s.next_free_frame)
  else if USE_LRU_PAGE_T then
    (invalidate_frame s (select_victim_frame_lru s), select_victim_frame_lru s)
  else
    (invalidate_frame (select_victim_frame_fifo s).1 (select_victim_frame_fifo s).2,
      (select_victim_frame_fifo s).2)

/-- Lines 210-227 of `main`: the page-fault branch. -/
def page_fault (USE_LRU_PAGE_T : Bool) (backing_store : Int → Int) (s : State)
    (page_number : Int) : State × Int :=
  let r := get_frame USE_LRU_PAGE_T { s with page_faults := s.page_faults + 1 }
  ({ r.1 with
      physical_memory := fread_page backing_store r.1.physical_memory page_number r.2
      page_table := arr_set r.1.page_table page_number r.2
      free_frame_list := arr_set r.1.free_frame_list r.2 1 },
    r.2)

/-- Lines 207-234 of `main`: the branch taken on a TLB miss. -/
def tlb_miss (USE_LRU_TLB USE_LRU_PAGE_T : Bool) (backing_store : Int → Int) (s : State)
    (page_number : Int) : State × Int :=
  let r :=
    if s.page_table page_number = -1 then
      page_fault USE_LRU_PAGE_T backing_store s page_number
    else (s, s.page_table page_number)
  (if USE_LRU_TLB then tlb_insert_lru r.1 page_number r.2
    else tlb_insert r.1 page_number r.2,
   r.2)

/-- Lines 201-236 of `main`: TLB lookup, then the hit or the miss branch.
The argument state is the one after `elapsed_time++` and `total_access++`. -/
def resolve (USE_LRU_TLB USE_LRU_PAGE_T : Bool) (backing_store : Int → Int) (s : State)
    (page_number : Int) : State × Int :=
  if (tlb_lookup s page_number).2 ≠ -1 then
    ({ (tlb_lookup s page_number).1 with TLB_hits := s.TLB_hits + 1 },
      (tlb_lookup s page_number).2)
  else
    tlb_miss USE_LRU_TLB USE_LRU_PAGE_T backing_store (tlb_lookup s page_number).1 page_number

/-- The start of the loop body: `elapsed_time++` and `total_access++`. -/
def tick (s : State) : State :=
  { s with elapsed_time := s.elapsed_time + 1, total_access := s.total_access + 1 }

/-- One iteration of the `while` loop of `main` on one logical address. -/
def translate (USE_LRU_TLB USE_LRU_PAGE_T : Bool) (backing_store : Int → Int) (s : State)
    (logical_address : Int) : State × Access :=
  let r := resolve USE_LRU_TLB USE_LRU_PAGE_T backing_store (tick s)
    (page_number_of logical_address)
  (r.1,
    { logical_address := logical_address
      frame_number := r.2
      physical_address := r.2 * 256 + offset_of logical_address
      value := r.1.physical_memory (r.2 * 256 + offset_of logical_address) })

/-- The state `main` sets up before the loop.  Globals start at zero, the page
table is filled with `-1`; the buffer returned by `malloc` has arbitrary
contents `mem`. -/
def init (mem : Int → Int) : State :=
  { physical_memory := mem
    page_table := fun _ => -1
    free_frame_list := fun _ => 0
    next_free_frame := 0
    tlb_next := 0
    elapsed_time := 0
    next_frame_to_evict := 0
    frame_age := fun _ => 0
    tlb := fun _ => { page_number := 0, frame_number := 0, valid := 0, age := 0 }
    page_faults := 0
    TLB_hits := 0
    total_access := 0 }

/-- The `while` loop of `main` over the addresses of the input file: final state. -/
def run (USE_LRU_TLB USE_LRU_PAGE_T : Bool) (backing_store : Int → Int) (s : State) :
    List Int → State
  | [] => s
  | a :: rest =>
    run USE_LRU_TLB USE_LRU_PAGE_T backing_store
      (translate USE_LRU_TLB USE_LRU_PAGE_T backing_store s a).1 rest

/-- The `while` loop of `main`: the list of access records it prints. -/
def trace (USE_LRU_TLB USE_LRU_PAGE_T : Bool) (backing_store : Int → Int) (s : State) :
    List Int → List Access
  | [] => []
  | a :: rest =>
    (translate USE_LRU_TLB USE_LRU_PAGE_T backing_store s a).2 ::
      trace USE_LRU_TLB USE_LRU_PAGE_T backing_store
        (translate USE_LRU_TLB USE_LRU_PAGE_T backing_store s a).1 rest

/-- The value of a 32-bit `int` computation whose mathematical result is `x`:
two's-complement wrap-around into `-2^31 .. 2^31 - 1`. -/
def wrap32 (x : Int) : Int :=
  (x + 2147483648) % 4294967296 - 2147483648

/-- The integer expression `100 * count / total_access` of lines 253-254: the
product is a 32-bit `int` (it wraps beyond `__INT32_MAX__`), the division
truncates towards zero. -/
def rate (count total_access : Int) : Int :=
  Int.tdiv (wrap32 (100 * count)) total_access

/-- Lines 253-254 of `main`: the two integer quotients that are stored into the
`float` variables (page-fault rate, TLB-hit rate).  A division by zero has no
result. -/
def statistics (s : State) : Option (Int × Int) :=
  if s.total_access = 0 then none
  else some (rate s.page_faults s.total_access, rate s.TLB_hits s.total_access)

/-- States the program can be in at the top of the `while` loop. -/
inductive Reachable (USE_LRU_TLB USE_LRU_PAGE_T : Bool) (backing_store : Int → Int) :
    State → Prop
  | start (mem : Int → Int) : Reachable USE_LRU_TLB USE_LRU_PAGE_T backing_store (init mem)
  | next (s : State) (logical_address : Int) :
      Reachable USE_LRU_TLB USE_LRU_PAGE_T backing_store s →
      Reachable USE_LRU_TLB USE_LRU_PAGE_T backing_store
        (translate USE_LRU_TLB USE_LRU_PAGE_T backing_store s logical_address).1

/-! ## Predicates used in the statements -/

/-- Entry `i` of `tlb` is a valid entry for `page`. -/
def tlb_match (tlb : Int → tlb_entry) (page i : Int) : Prop :=
  (tlb i).valid ≠ 0 ∧ (tlb i).page_number = page

instance tlb_match_decidable (tlb : Int → tlb_entry) (page i : Int) :
    Decidable (tlb_match tlb page i) := by
  unfold tlb_match
  infer_instance

/-- The valid entries of a TLB agree with a page table, and name pages of the table. -/
def tlb_consistent (tlb : Int → tlb_entry) (pt : Int → Int) : Prop :=
  ∀ i, 0 ≤ i → i < 16 → (tlb i).valid ≠ 0 →
    0 ≤ (tlb i).page_number ∧ (tlb i).page_number < 256 ∧
    (tlb i).frame_number ≠ -1 ∧ pt (tlb i).page_number = (tlb i).frame_number

/-- No page has two valid entries in a TLB. -/
def tlb_nodup (tlb : Int → tlb_entry) : Prop :=
  ∀ i j, 0 ≤ i → i < 16 → 0 ≤ j → j < 16 → (tlb i).valid ≠ 0 → (tlb j).valid ≠ 0 →
    (tlb i).page_number = (tlb j).page_number → i = j

/-- The invariant, with one frame `hole` allowed to have no owning page
(`hole = -1` for none: that is the invariant proper). -/
structure InvExcept (bs : Int → Int) (s : State) (hole : Int) : Prop where
  nff_lo : 0 ≤ s.next_free_frame
  nff_hi : s.next_free_frame ≤ 128
  ev_lo : 0 ≤ s.next_frame_to_evict
  ev_hi : s.next_frame_to_evict < 128
  tn_lo : 0 ≤ s.tlb_next
  tn_hi : s.tlb_next < 16
  pt_range : ∀ P, 0 ≤ P → P < 256 →
    s.page_table P = -1 ∨ (0 ≤ s.page_table P ∧ s.page_table P < s.next_free_frame)
  pt_inj : ∀ P Q, 0 ≤ P → P < 256 → 0 ≤ Q → Q < 256 → s.page_table P ≠ -1 →
    s.page_table P = s.page_table Q → P = Q
  owner : ∀ f, 0 ≤ f → f < s.next_free_frame → f ≠ hole →
    ∃ P, 0 ≤ P ∧ P < 256 ∧ s.page_table P = f
  unowned : ∀ P, 0 ≤ P → P < 256 → s.page_table P ≠ hole ∨ hole = -1
  tlb_ok : tlb_consistent s.tlb s.page_table
  tlb_nd : tlb_nodup s.tlb
  mem_ok : ∀ P, 0 ≤ P → P < 256 → s.page_table P ≠ -1 → ∀ O, 0 ≤ O → O < 256 →
    s.physical_memory (s.page_table P * 256 + O) = bs (P * 256 + O)
  age_zero : ∀ i, s.frame_age i = 0

/-- The invariant of the main loop. -/
def Inv (bs : Int → Int) (s : State) : Prop := InvExcept bs s (-1)

/-! ## Concrete data for the worked examples -/

/-- A backing store that is zero everywhere except byte 0 of page 5, which is 42. -/
def store42 : Int → Int := fun a => if a = 5 * 256 then 42 else 0

/-- Initial contents of physical memory used in the examples. -/
def mem0 : Int → Int := fun _ => 0

/-- The address of byte 0 of page `k`. -/
def page_addr (k : Nat) : Int := (k : Int) * 256

/-- The state after the single access `5*256+0` with both LRU policies. -/
def after5 : State := (translate true true store42 (init mem0) (5 * 256)).1

/-- Fault in pages 0..127, access pages 0..126 again, then access page 128. -/
def lru_scenario : List Int :=
  (List.range 128).map page_addr ++ (List.range 127).map page_addr ++ [page_addr 128]

/-! ## Auxiliary definitions used in the statements -/

/-- The function `tlb_insert` called once for each (page, frame) pair of a list, in order. -/
def tlb_insert_seq (s : State) : List (Int × Int) → State
  | [] => s
  | x :: rest => tlb_insert_seq (tlb_insert s x.1 x.2) rest

/-- The translation of `logical_address` in state `s` takes the page-fault
branch of `main`: `tlb_lookup` returns `-1` and the page-table entry is `-1`. -/
def page_fault_path (s : State) (logical_address : Int) : Prop :=
  (tlb_lookup (tick s) (page_number_of logical_address)).2 = -1 ∧
    (tlb_lookup (tick s) (page_number_of logical_address)).1.page_table
      (page_number_of logical_address) = -1

/-- Sixteen (page, frame) pairs: page `k + 100` in frame `k`. -/
def sixteen_pairs : List (Int × Int) :=
  (List.range 16).map (fun k => ((k : Int) + 100, (k : Int)))

instance page_fault_path_decidable (s : State) (logical_address : Int) :
    Decidable (page_fault_path s logical_address) := by
  unfold page_fault_path
  infer_instance

/-- The state after pages 0..127 have been faulted in: all 128 frames are in use. -/
def full_state : State :=
  run true true store42 (init mem0) ((List.range 128).map page_addr)

/-- The number of page faults among the translations of a list of addresses,
started in state `s`. -/
def faults_in (USE_LRU_TLB USE_LRU_PAGE_T : Bool) (backing_store : Int → Int) :
    State → List Int → Nat
  | _, [] => 0
  | s, a :: rest =>
    (if page_fault_path s a then 1 else 0) +
      faults_in USE_LRU_TLB USE_LRU_PAGE_T backing_store
        (translate USE_LRU_TLB USE_LRU_PAGE_T backing_store s a).1 rest

/-! ## Basic facts about arrays and address decomposition -/

theorem arr_set_same {α : Type} (a : Int → α) (i : Int) (v : α) :
    arr_set a i v i = v := by
  simp [arr_set]

theorem arr_set_other {α : Type} (a : Int → α) (i j : Int) (v : α) (h : j ≠ i) :
    arr_set a i v j = a j := by
  simp [arr_set, h]

theorem land_255_range (x : Int) : 0 ≤ Int.land x 255 ∧ Int.land x 255 < 256 := by
  cases x with
  | ofNat m =>
    have h : m &&& 255 ≤ 255 := Nat.and_le_right
    show 0 ≤ ((m &&& 255 : Nat) : Int) ∧ ((m &&& 255 : Nat) : Int) < 256
    omega
  | negSucc m =>
    have h : Nat.ldiff 255 m < 2 ^ 8 := by
      apply Nat.lt_pow_two_of_testBit
      intro i hi
      rw [Nat.testBit_ldiff]
      have : Nat.testBit 255 i = false := by
        apply Nat.testBit_lt_two_pow
        calc 255 < 2 ^ 8 := by norm_num
          _ ≤ 2 ^ i := Nat.pow_le_pow_right (by norm_num) hi
      simp [this]
    show 0 ≤ ((Nat.ldiff 255 m : Nat) : Int) ∧ ((Nat.ldiff 255 m : Nat) : Int) < 256
    norm_num at h
    omega

theorem page_number_of_range (a : Int) :
    0 ≤ page_number_of a ∧ page_number_of a < 256 :=
  land_255_range _

theorem offset_of_range (a : Int) : 0 ≤ offset_of a ∧ offset_of a < 256 :=
  land_255_range _

theorem page_number_of_nat (n : Nat) : page_number_of (n : Int) = ((n / 256 % 256 : Nat) : Int) := by
  show (((n >>> 8) &&& 255 : Nat) : Int) = _
  have h := Nat.and_pow_two_sub_one_eq_mod (n >>> 8) 8
  norm_num at h
  rw [h, Nat.shiftRight_eq_div_pow]

theorem offset_of_nat (n : Nat) : offset_of (n : Int) = ((n % 256 : Nat) : Int) := by
  show ((n &&& 255 : Nat) : Int) = _
  have h := Nat.and_pow_two_sub_one_eq_mod n 8
  norm_num at h
  rw [h]

/-! ## Specifications of the loops -/

/-- The lookup loop either stops at the first matching entry of its range, or
finds none and returns `-1` with the TLB untouched. -/
theorem tlb_lookup_loop_spec (tlb : Int → tlb_entry) (el p : Int) (n : Nat) (i : Int) :
    (∃ k, i ≤ k ∧ k < i + n ∧ tlb_match tlb p k ∧
        (∀ j, i ≤ j → j < k → ¬ tlb_match tlb p j) ∧
        tlb_lookup_loop tlb el p n i
          = (arr_set tlb k { tlb k with age := el }, (tlb k).frame_number)) ∨
    ((∀ j, i ≤ j → j < i + n → ¬ tlb_match tlb p j) ∧
        tlb_lookup_loop tlb el p n i = (tlb, -1)) := by
  induction n generalizing i with
  | zero =>
    right
    refine ⟨fun j h1 h2 => ?_, rfl⟩
    simp at h2
    omega
  | succ n ih =>
    by_cases hm : (tlb i).valid ≠ 0 ∧ (tlb i).page_number = p
    · left
      refine ⟨i, le_refl _, by push_cast; omega, hm, fun j h1 h2 => by omega, ?_⟩
      simp only [tlb_lookup_loop, if_pos hm]
    · have hstep : tlb_lookup_loop tlb el p (n + 1) i = tlb_lookup_loop tlb el p n (i + 1) := by
        simp only [tlb_lookup_loop, if_neg hm]
      rw [hstep]
      rcases ih (i + 1) with ⟨k, h1, h2, h3, h4, h5⟩ | ⟨h1, h2⟩
      · left
        refine ⟨k, by omega, by push_cast; omega, h3, fun j hj1 hj2 => ?_, h5⟩
        by_cases hji : j = i
        · subst hji; exact hm
        · exact h4 j (by omega) hj2
      · right
        refine ⟨fun j hj1 hj2 => ?_, h2⟩
        by_cases hji : j = i
        · subst hji; exact hm
        · exact h1 j (by omega) (by push_cast at hj2; omega)

/-- Closed form of the inner invalidation loop. -/
theorem invalidate_tlb_loop_apply (page : Int) (n : Nat) (i : Int) (tlb : Int → tlb_entry)
    (j : Int) :
    invalidate_tlb_loop page n i tlb j =
      if i ≤ j ∧ j < i + n ∧ tlb_match tlb page j then { tlb j with valid := 0 } else tlb j := by
  induction n generalizing i tlb with
  | zero =>
    have : ¬ (i ≤ j ∧ j < i + ((0 : Nat) : Int) ∧ tlb_match tlb page j) := by
      intro h; have := h.2.1; simp at this; omega
    rw [if_neg this]; rfl
  | succ n ih =>
    by_cases hm : (tlb i).valid ≠ 0 ∧ (tlb i).page_number = page
    · have hstep : invalidate_tlb_loop page (n + 1) i tlb
          = invalidate_tlb_loop page n (i + 1) (arr_set tlb i { tlb i with valid := 0 }) := by
        simp only [invalidate_tlb_loop, if_pos hm]
      rw [hstep, ih]
      by_cases hji : j = i
      · subst hji
        have h1 : ¬ (j + 1 ≤ j ∧ j < j + 1 + (n : Int) ∧
            tlb_match (arr_set tlb j { tlb j with valid := 0 }) page j) := by
          intro h; omega
        have h2 : j ≤ j ∧ j < j + ((n + 1 : Nat) : Int) ∧ tlb_match tlb page j :=
          ⟨le_refl _, by push_cast; omega, hm⟩
        rw [if_neg h1, if_pos h2, arr_set_same]
      · have e : arr_set tlb i { tlb i with valid := 0 } j = tlb j := arr_set_other _ _ _ _ hji
        have hiff : (i + 1 ≤ j ∧ j < i + 1 + (n : Int) ∧
            tlb_match (arr_set tlb i { tlb i with valid := 0 }) page j) ↔
            (i ≤ j ∧ j < i + ((n + 1 : Nat) : Int) ∧ tlb_match tlb page j) := by
          unfold tlb_match
          rw [e]; push_cast
          constructor
          · rintro ⟨a, b, c⟩; exact ⟨by omega, by omega, c⟩
          · rintro ⟨a, b, c⟩; exact ⟨by omega, by omega, c⟩
        simp only [hiff, e]
    · have hstep : invalidate_tlb_loop page (n + 1) i tlb
          = invalidate_tlb_loop page n (i + 1) tlb := by
        simp only [invalidate_tlb_loop, if_neg hm]
      rw [hstep, ih]
      have hiff : (i + 1 ≤ j ∧ j < i + 1 + (n : Int) ∧ tlb_match tlb page j) ↔
          (i ≤ j ∧ j < i + ((n + 1 : Nat) : Int) ∧ tlb_match tlb page j) := by
        push_cast
        constructor
        · rintro ⟨a, b, c⟩; exact ⟨by omega, by omega, c⟩
        · rintro ⟨a, b, c⟩
          refine ⟨?_, by omega, c⟩
          by_cases hji : j = i
          · subst hji; exact absurd c hm
          · omega
      simp only [hiff]

/-- The outer invalidation loop clears the first page of its range that maps
to the victim frame, or changes nothing when there is none. -/
theorem invalidate_frame_loop_spec (s : State) (v : Int) (n : Nat) (i : Int) :
    (∃ P, i ≤ P ∧ P < i + n ∧ s.page_table P = v ∧
        (∀ Q, i ≤ Q → Q < P → s.page_table Q ≠ v) ∧
        invalidate_frame_loop s v n i =
          { s with
            page_table := arr_set s.page_table P (-1)
            tlb := invalidate_tlb_loop P TLB_SIZE 0 s.tlb }) ∨
    ((∀ Q, i ≤ Q → Q < i + n → s.page_table Q ≠ v) ∧ invalidate_frame_loop s v n i = s) := by
  induction n generalizing i with
  | zero =>
    right
    refine ⟨fun j h1 h2 => ?_, rfl⟩
    simp at h2
    omega
  | succ n ih =>
    by_cases hm : s.page_table i = v
    · left
      refine ⟨i, le_refl _, by push_cast; omega, hm, fun j h1 h2 => by omega, ?_⟩
      simp only [invalidate_frame_loop, if_pos hm]
    · have hstep : invalidate_frame_loop s v (n + 1) i = invalidate_frame_loop s v n (i + 1) := by
        simp only [invalidate_frame_loop, if_neg hm]
      rw [hstep]
      rcases ih (i + 1) with ⟨k, h1, h2, h3, h4, h5⟩ | ⟨h1, h2⟩
      · left
        refine ⟨k, by omega, by push_cast; omega, h3, fun j hj1 hj2 => ?_, h5⟩
        by_cases hji : j = i
        · subst hji; exact hm
        · exact h4 j (by omega) hj2
      · right
        refine ⟨fun j hj1 hj2 => ?_, h2⟩
        by_cases hji : j = i
        · subst hji; exact hm
        · exact h1 j (by omega) (by push_cast at hj2; omega)

/-- The LRU victim scan returns an index of its range. -/
theorem select_victim_frame_lru_loop_range (fa : Int → Int) (n : Nat) (i oa ofr : Int)
    (h0 : 0 ≤ ofr) (h1 : ofr < i) :
    0 ≤ select_victim_frame_lru_loop fa n i oa ofr ∧
      select_victim_frame_lru_loop fa n i oa ofr < i + n := by
  induction n generalizing i oa ofr with
  | zero => simp [select_victim_frame_lru_loop]; omega
  | succ n ih =>
    simp only [select_victim_frame_lru_loop]
    split
    · have := ih (i + 1) (fa i) i (by omega) (by omega)
      push_cast; omega
    · have := ih (i + 1) oa ofr h0 (by omega)
      push_cast; omega

/-- When no frame is younger than the running minimum the scan keeps its candidate. -/
theorem select_victim_frame_lru_loop_keep (fa : Int → Int) (n : Nat) (i oa ofr : Int)
    (h : ∀ j, oa ≤ fa j) :
    select_victim_frame_lru_loop fa n i oa ofr = ofr := by
  induction n generalizing i with
  | zero => rfl
  | succ n ih =>
    simp only [select_victim_frame_lru_loop]
    rw [if_neg (by have := h i; omega)]
    exact ih (i + 1)

/-- The LRU insert writes exactly one slot of its range. -/
theorem tlb_insert_lru_loop_writes (s : State) (p f : Int) (n : Nat) (i la li : Int)
    (h0 : 0 ≤ i) (h1 : 0 ≤ li) (h2 : li < i + n) :
    ∃ k, 0 ≤ k ∧ k < i + n ∧ tlb_insert_lru_loop s p f n i la li = tlb_write s k p f := by
  induction n generalizing i la li with
  | zero => exact ⟨li, h1, h2, rfl⟩
  | succ n ih =>
    simp only [tlb_insert_lru_loop]
    split
    · exact ⟨i, h0, by push_cast; omega, rfl⟩
    · split
      · obtain ⟨k, a, b, c⟩ := ih (i + 1) (s.tlb i).age i (by omega) h0 (by omega)
        exact ⟨k, a, by push_cast; omega, c⟩
      · obtain ⟨k, a, b, c⟩ := ih (i + 1) la li (by omega) h1 (by push_cast at h2; omega)
        exact ⟨k, a, by push_cast; omega, c⟩

/-! ## The invariant of the main loop -/

theorem TLB_SIZE_cast : ((TLB_SIZE : Nat) : Int) = 16 := rfl

theorem NUMBER_OF_FRAMES_cast : ((NUMBER_OF_FRAMES : Nat) : Int) = 128 := rfl

theorem PAGE_TABLE_SIZE_cast : ((PAGE_TABLE_SIZE : Nat) : Int) = 256 := rfl

theorem inv_init (bs mem : Int → Int) : Inv bs (init mem) := by
  refine ⟨by simp [init], by simp [init], by simp [init], by simp [init], by simp [init],
    by simp [init], ?_, ?_, ?_, ?_, ?_, ?_, ?_, ?_⟩
  · intro P _ _; left; rfl
  · intro P Q _ _ _ _ h _; exact absurd rfl h
  · intro f h0 h1 _; simp [init] at h1; omega
  · intro P _ _; right; rfl
  · intro i _ _ h; exact absurd rfl h
  · intro i j _ _ _ _ h; exact absurd rfl h
  · intro P _ _ h; exact absurd rfl h
  · intro i; rfl

theorem inv_tick (bs : Int → Int) (s : State) (h : Inv bs s) : Inv bs (tick s) :=
  ⟨h.nff_lo, h.nff_hi, h.ev_lo, h.ev_hi, h.tn_lo, h.tn_hi, h.pt_range, h.pt_inj, h.owner,
    h.unowned, h.tlb_ok, h.tlb_nd, h.mem_ok, h.age_zero⟩

/-- Replacing the TLB and the FIFO cursor (and the hit counter) keeps the
invariant when the new TLB is consistent and duplicate-free. -/
theorem inv_set_tlb (bs : Int → Int) (s : State) (h : Inv bs s) (T : Int → tlb_entry)
    (c hits : Int) (hc0 : 0 ≤ c) (hc1 : c < 16) (hT : tlb_consistent T s.page_table)
    (hN : tlb_nodup T) :
    Inv bs { s with tlb := T, tlb_next := c, TLB_hits := hits } :=
  ⟨h.nff_lo, h.nff_hi, h.ev_lo, h.ev_hi, hc0, hc1, h.pt_range, h.pt_inj, h.owner,
    h.unowned, hT, hN, h.mem_ok, h.age_zero⟩

/-- An entry that survives the invalidation of `page` is unchanged and is not for `page`. -/
theorem invalidate_tlb_valid (page : Int) (tlb : Int → tlb_entry) (j : Int)
    (h0 : 0 ≤ j) (h1 : j < 16)
    (hv : (invalidate_tlb_loop page TLB_SIZE 0 tlb j).valid ≠ 0) :
    invalidate_tlb_loop page TLB_SIZE 0 tlb j = tlb j ∧ (tlb j).page_number ≠ page := by
  rw [invalidate_tlb_loop_apply] at hv ⊢
  by_cases hm : tlb_match tlb page j
  · have hc : 0 ≤ j ∧ j < 0 + ((TLB_SIZE : Nat) : Int) ∧ tlb_match tlb page j :=
      ⟨h0, by rw [TLB_SIZE_cast]; omega, hm⟩
    rw [if_pos hc] at hv
    exact absurd rfl hv
  · have hc : ¬ (0 ≤ j ∧ j < 0 + ((TLB_SIZE : Nat) : Int) ∧ tlb_match tlb page j) :=
      fun h => hm h.2.2
    rw [if_neg hc] at hv ⊢
    exact ⟨rfl, fun hp => hm ⟨hv, hp⟩⟩

/-- Refreshing fields that the invariant does not read keeps a TLB consistent. -/
theorem tlb_consistent_congr (tlb T : Int → tlb_entry) (pt : Int → Int)
    (h : tlb_consistent tlb pt)
    (hT : ∀ i, 0 ≤ i → i < 16 → (T i).valid ≠ 0 →
      (tlb i).valid ≠ 0 ∧ (T i).page_number = (tlb i).page_number ∧
      (T i).frame_number = (tlb i).frame_number) :
    tlb_consistent T pt := by
  intro i h0 h1 hv
  obtain ⟨a, b, c⟩ := hT i h0 h1 hv
  rw [b, c]
  exact h i h0 h1 a

theorem tlb_nodup_congr (tlb T : Int → tlb_entry) (h : tlb_nodup tlb)
    (hT : ∀ i, 0 ≤ i → i < 16 → (T i).valid ≠ 0 →
      (tlb i).valid ≠ 0 ∧ (T i).page_number = (tlb i).page_number) :
    tlb_nodup T := by
  intro i j hi0 hi1 hj0 hj1 hvi hvj hp
  obtain ⟨a, b⟩ := hT i hi0 hi1 hvi
  obtain ⟨c, d⟩ := hT j hj0 hj1 hvj
  rw [b, d] at hp
  exact h i j hi0 hi1 hj0 hj1 a c hp

/-- Writing a consistent entry into one slot keeps a TLB consistent. -/
theorem tlb_consistent_put (tlb : Int → tlb_entry) (pt : Int → Int) (k : Int) (e : tlb_entry)
    (h : tlb_consistent tlb pt)
    (he : 0 ≤ e.page_number ∧ e.page_number < 256 ∧ e.frame_number ≠ -1 ∧
      pt e.page_number = e.frame_number) :
    tlb_consistent (arr_set tlb k e) pt := by
  intro i h0 h1 hv
  by_cases hik : i = k
  · subst hik
    rw [arr_set_same] at hv ⊢
    exact he
  · rw [arr_set_other _ _ _ _ hik] at hv ⊢
    exact h i h0 h1 hv

/-- Writing an entry for a page that no other slot caches keeps a TLB duplicate-free. -/
theorem tlb_nodup_put (tlb : Int → tlb_entry) (k : Int) (e : tlb_entry)
    (h : tlb_nodup tlb)
    (hm : ∀ i, 0 ≤ i → i < 16 → i ≠ k → ¬ tlb_match tlb e.page_number i) :
    tlb_nodup (arr_set tlb k e) := by
  intro i j hi0 hi1 hj0 hj1 hvi hvj hp
  by_cases hik : i = k <;> by_cases hjk : j = k
  · rw [hik, hjk]
  · subst hik
    rw [arr_set_same, arr_set_other _ _ _ _ hjk] at hp
    rw [arr_set_other _ _ _ _ hjk] at hvj
    exact absurd ⟨hvj, hp.symm⟩ (hm j hj0 hj1 hjk)
  · subst hjk
    rw [arr_set_same, arr_set_other _ _ _ _ hik] at hp
    rw [arr_set_other _ _ _ _ hik] at hvi
    exact absurd ⟨hvi, hp⟩ (hm i hi0 hi1 hik)
  · rw [arr_set_other _ _ _ _ hik] at hvi hp
    rw [arr_set_other _ _ _ _ hjk] at hvj hp
    exact h i j hi0 hi1 hj0 hj1 hvi hvj hp

/-- Handing out the next free frame leaves the invariant with that frame unowned. -/
theorem inv_free (bs : Int → Int) (s : State) (h : Inv bs s) (pf : Int)
    (hlt : s.next_free_frame < 128) :
    InvExcept bs { s with page_faults := pf, next_free_frame := s.next_free_frame + 1 }
      s.next_free_frame := by
  refine ⟨?_, ?_, h.ev_lo, h.ev_hi, h.tn_lo, h.tn_hi, ?_, h.pt_inj, ?_, ?_, h.tlb_ok, h.tlb_nd,
    h.mem_ok, h.age_zero⟩
  · have := h.nff_lo; show 0 ≤ s.next_free_frame + 1; omega
  · show s.next_free_frame + 1 ≤ 128; omega
  · intro P h0 h1
    rcases h.pt_range P h0 h1 with a | ⟨a, b⟩
    · left; exact a
    · right; exact ⟨a, by show s.page_table P < s.next_free_frame + 1; omega⟩
  · intro f h0 h1 h2
    have h1 : f < s.next_free_frame + 1 := h1
    exact h.owner f h0 (by omega) (by omega)
  · intro P h0 h1
    left
    show s.page_table P ≠ s.next_free_frame
    rcases h.pt_range P h0 h1 with a | ⟨a, b⟩
    · have := h.nff_lo; omega
    · omega

/-- Invalidating an owned victim frame leaves the invariant with that frame unowned. -/
theorem inv_evict (bs : Int → Int) (s : State) (h : Inv bs s) (pf e v : Int)
    (hfull : s.next_free_frame = 128) (he0 : 0 ≤ e) (he1 : e < 128)
    (hv0 : 0 ≤ v) (hv1 : v < 128) :
    InvExcept bs
      (invalidate_frame { s with page_faults := pf, next_frame_to_evict := e } v) v := by
  obtain ⟨P1, hP10, hP11, hP1v⟩ := h.owner v hv0 (by omega) (by omega)
  unfold invalidate_frame
  rcases invalidate_frame_loop_spec
      { s with page_faults := pf, next_frame_to_evict := e } v PAGE_TABLE_SIZE 0 with
    ⟨P0, a, b, c, d, hres⟩ | ⟨hnone, _⟩
  · rw [hres]
    rw [PAGE_TABLE_SIZE_cast] at b
    have c : s.page_table P0 = v := c
    have hb : P0 < 256 := by omega
    refine ⟨h.nff_lo, h.nff_hi, he0, he1, h.tn_lo, h.tn_hi, ?_, ?_, ?_, ?_, ?_, ?_, ?_,
      h.age_zero⟩
    · intro P h0 h1
      show arr_set s.page_table P0 (-1) P = -1 ∨
        (0 ≤ arr_set s.page_table P0 (-1) P ∧ arr_set s.page_table P0 (-1) P < s.next_free_frame)
      by_cases hP : P = P0
      · left; rw [hP, arr_set_same]
      · rw [arr_set_other _ _ _ _ hP]; exact h.pt_range P h0 h1
    · intro P Q hP0 hP1 hQ0 hQ1 hne heq
      have hne : arr_set s.page_table P0 (-1) P ≠ -1 := hne
      have heq : arr_set s.page_table P0 (-1) P = arr_set s.page_table P0 (-1) Q := heq
      have hP : P ≠ P0 := fun hP => hne (by rw [hP, arr_set_same])
      rw [arr_set_other _ _ _ _ hP] at hne heq
      have hQ : Q ≠ P0 := fun hQ => hne (by rw [heq, hQ, arr_set_same])
      rw [arr_set_other _ _ _ _ hQ] at heq
      exact h.pt_inj P Q hP0 hP1 hQ0 hQ1 hne heq
    · intro f h0 h1 h2
      obtain ⟨P, x, y, z⟩ := h.owner f h0 h1 (by omega)
      refine ⟨P, x, y, ?_⟩
      show arr_set s.page_table P0 (-1) P = f
      have hP : P ≠ P0 := fun hP => h2 (by rw [← z, hP, c])
      rw [arr_set_other _ _ _ _ hP]; exact z
    · intro P h0 h1
      left
      show arr_set s.page_table P0 (-1) P ≠ v
      by_cases hP : P = P0
      · rw [hP, arr_set_same]; omega
      · rw [arr_set_other _ _ _ _ hP]
        intro hPv
        exact hP (h.pt_inj P P0 h0 h1 (by omega) hb (by omega) (by rw [hPv, c]))
    · intro i h0 h1 hv
      have hv : (invalidate_tlb_loop P0 TLB_SIZE 0 s.tlb i).valid ≠ 0 := hv
      obtain ⟨e1, e2⟩ := invalidate_tlb_valid P0 s.tlb i h0 h1 hv
      show 0 ≤ (invalidate_tlb_loop P0 TLB_SIZE 0 s.tlb i).page_number ∧
        (invalidate_tlb_loop P0 TLB_SIZE 0 s.tlb i).page_number < 256 ∧
        (invalidate_tlb_loop P0 TLB_SIZE 0 s.tlb i).frame_number ≠ -1 ∧
        arr_set s.page_table P0 (-1) (invalidate_tlb_loop P0 TLB_SIZE 0 s.tlb i).page_number
          = (invalidate_tlb_loop P0 TLB_SIZE 0 s.tlb i).frame_number
      rw [e1] at hv ⊢
      rw [arr_set_other _ _ _ _ e2]
      exact h.tlb_ok i h0 h1 hv
    · show tlb_nodup (invalidate_tlb_loop P0 TLB_SIZE 0 s.tlb)
      apply tlb_nodup_congr s.tlb _ h.tlb_nd
      intro i h0 h1 hv
      obtain ⟨e1, _⟩ := invalidate_tlb_valid P0 s.tlb i h0 h1 hv
      rw [e1] at hv ⊢
      exact ⟨hv, rfl⟩
    · intro P h0 h1 hne O hO0 hO1
      have hne : arr_set s.page_table P0 (-1) P ≠ -1 := hne
      show s.physical_memory (arr_set s.page_table P0 (-1) P * 256 + O) = bs (P * 256 + O)
      have hP : P ≠ P0 := fun hP => hne (by rw [hP, arr_set_same])
      rw [arr_set_other _ _ _ _ hP] at hne ⊢
      exact h.mem_ok P h0 h1 hne O hO0 hO1
  · rw [PAGE_TABLE_SIZE_cast] at hnone
    exact absurd hP1v (hnone P1 hP10 (by omega))

/-- Loading a page into an unowned frame and mapping it restores the invariant. -/
theorem inv_load (bs : Int → Int) (s : State) (f p : Int) (h : InvExcept bs s f)
    (hf0 : 0 ≤ f) (hf1 : f < s.next_free_frame) (hp0 : 0 ≤ p) (hp1 : p < 256)
    (hpt : s.page_table p = -1) :
    Inv bs { s with
      physical_memory := fread_page bs s.physical_memory p f
      page_table := arr_set s.page_table p f
      free_frame_list := arr_set s.free_frame_list f 1 } := by
  have hun : ∀ P, 0 ≤ P → P < 256 → s.page_table P ≠ f := by
    intro P h0 h1
    rcases h.unowned P h0 h1 with a | a
    · exact a
    · omega
  refine ⟨h.nff_lo, h.nff_hi, h.ev_lo, h.ev_hi, h.tn_lo, h.tn_hi, ?_, ?_, ?_, ?_, ?_, h.tlb_nd,
    ?_, h.age_zero⟩
  · intro P h0 h1
    show arr_set s.page_table p f P = -1 ∨
      (0 ≤ arr_set s.page_table p f P ∧ arr_set s.page_table p f P < s.next_free_frame)
    by_cases hP : P = p
    · right; rw [hP, arr_set_same]; exact ⟨hf0, hf1⟩
    · rw [arr_set_other _ _ _ _ hP]; exact h.pt_range P h0 h1
  · intro P Q hP0 hP1 hQ0 hQ1 hne heq
    have hne : arr_set s.page_table p f P ≠ -1 := hne
    have heq : arr_set s.page_table p f P = arr_set s.page_table p f Q := heq
    by_cases hP : P = p <;> by_cases hQ : Q = p
    · rw [hP, hQ]
    · rw [hP, arr_set_same, arr_set_other _ _ _ _ hQ] at heq
      exact absurd heq.symm (hun Q hQ0 hQ1)
    · rw [hQ, arr_set_same, arr_set_other _ _ _ _ hP] at heq
      exact absurd heq (hun P hP0 hP1)
    · rw [arr_set_other _ _ _ _ hP] at hne heq
      rw [arr_set_other _ _ _ _ hQ] at heq
      exact h.pt_inj P Q hP0 hP1 hQ0 hQ1 hne heq
  · intro g h0 h1 _
    by_cases hg : g = f
    · exact ⟨p, hp0, hp1, by show arr_set s.page_table p f p = g; rw [arr_set_same, hg]⟩
    · obtain ⟨P, x, y, z⟩ := h.owner g h0 h1 hg
      refine ⟨P, x, y, ?_⟩
      show arr_set s.page_table p f P = g
      have hP : P ≠ p := fun hP => by rw [hP, hpt] at z; omega
      rw [arr_set_other _ _ _ _ hP]; exact z
  · intro P _ _; right; rfl
  · intro i h0 h1 hv
    obtain ⟨a, b, c, d⟩ := h.tlb_ok i h0 h1 hv
    refine ⟨a, b, c, ?_⟩
    show arr_set s.page_table p f (s.tlb i).page_number = (s.tlb i).frame_number
    have hP : (s.tlb i).page_number ≠ p := fun hP => by rw [hP, hpt] at d; exact c d.symm
    rw [arr_set_other _ _ _ _ hP]; exact d
  · intro P h0 h1 hne O hO0 hO1
    have hne : arr_set s.page_table p f P ≠ -1 := hne
    show fread_page bs s.physical_memory p f (arr_set s.page_table p f P * 256 + O)
      = bs (P * 256 + O)
    by_cases hP : P = p
    · rw [hP, arr_set_same]
      unfold fread_page
      rw [if_pos ⟨by omega, by omega⟩]
      congr 1; omega
    · rw [arr_set_other _ _ _ _ hP] at hne ⊢
      have hg := hun P h0 h1
      unfold fread_page
      rw [if_neg (by omega)]
      exact h.mem_ok P h0 h1 hne O hO0 hO1

/-! ## One step of the main loop keeps the invariant -/

theorem select_victim_frame_lru_range (s : State) :
    0 ≤ select_victim_frame_lru s ∧ select_victim_frame_lru s < 128 := by
  have h := select_victim_frame_lru_loop_range s.frame_age (NUMBER_OF_FRAMES - 1) 1
    (s.frame_age 0) 0 (le_refl _) (by norm_num)
  have e : ((NUMBER_OF_FRAMES - 1 : Nat) : Int) = 127 := rfl
  rw [e] at h
  unfold select_victim_frame_lru
  omega

/-- With all frame ages equal to zero the LRU scan returns frame 0. -/
theorem select_victim_frame_lru_zero (s : State) (h : ∀ i, s.frame_age i = 0) :
    select_victim_frame_lru s = 0 := by
  unfold select_victim_frame_lru
  apply select_victim_frame_lru_loop_keep
  intro j
  rw [h 0, h j]

theorem invalidate_frame_cases (s : State) (v : Int) :
    (∃ P, 0 ≤ P ∧ P < 256 ∧ s.page_table P = v ∧
        (∀ Q, 0 ≤ Q → Q < P → s.page_table Q ≠ v) ∧
        invalidate_frame s v =
          { s with
            page_table := arr_set s.page_table P (-1)
            tlb := invalidate_tlb_loop P TLB_SIZE 0 s.tlb }) ∨
    ((∀ Q, 0 ≤ Q → Q < 256 → s.page_table Q ≠ v) ∧ invalidate_frame s v = s) := by
  unfold invalidate_frame
  rcases invalidate_frame_loop_spec s v PAGE_TABLE_SIZE 0 with ⟨P, a, b, c, d, e⟩ | ⟨a, b⟩
  · left
    rw [PAGE_TABLE_SIZE_cast] at b
    exact ⟨P, a, by omega, c, d, e⟩
  · right
    rw [PAGE_TABLE_SIZE_cast] at a
    exact ⟨fun Q h0 h1 => a Q h0 (by omega), b⟩

/-- What `invalidate_frame` leaves alone. -/
theorem invalidate_frame_frame (s : State) (v : Int) :
    (invalidate_frame s v).physical_memory = s.physical_memory ∧
    (invalidate_frame s v).free_frame_list = s.free_frame_list ∧
    (invalidate_frame s v).next_free_frame = s.next_free_frame ∧
    (invalidate_frame s v).tlb_next = s.tlb_next ∧
    (invalidate_frame s v).elapsed_time = s.elapsed_time ∧
    (invalidate_frame s v).next_frame_to_evict = s.next_frame_to_evict ∧
    (invalidate_frame s v).frame_age = s.frame_age ∧
    (invalidate_frame s v).page_faults = s.page_faults ∧
    (invalidate_frame s v).TLB_hits = s.TLB_hits ∧
    (invalidate_frame s v).total_access = s.total_access ∧
    (∀ Q, s.page_table Q = -1 → (invalidate_frame s v).page_table Q = -1) := by
  rcases invalidate_frame_cases s v with ⟨P, _, _, _, _, e⟩ | ⟨_, e⟩
  · rw [e]
    refine ⟨rfl, rfl, rfl, rfl, rfl, rfl, rfl, rfl, rfl, rfl, ?_⟩
    intro Q hQ
    show arr_set s.page_table P (-1) Q = -1
    by_cases hQP : Q = P
    · rw [hQP, arr_set_same]
    · rw [arr_set_other _ _ _ _ hQP]; exact hQ
  · rw [e]
    exact ⟨rfl, rfl, rfl, rfl, rfl, rfl, rfl, rfl, rfl, rfl, fun Q hQ => hQ⟩

theorem get_frame_free (lf : Bool) (s : State) (h : s.next_free_frame < 128) :
    get_frame lf s = ({ s with next_free_frame := s.next_free_frame + 1 }, s.next_free_frame) := by
  unfold get_frame
  rw [if_pos (by rw [NUMBER_OF_FRAMES_cast]; exact h)]

theorem get_frame_lru (s : State) (h : ¬ s.next_free_frame < 128) :
    get_frame true s =
      (invalidate_frame s (select_victim_frame_lru s), select_victim_frame_lru s) := by
  unfold get_frame
  rw [if_neg (by rw [NUMBER_OF_FRAMES_cast]; exact h)]
  rfl

theorem get_frame_fifo (s : State) (h : ¬ s.next_free_frame < 128) :
    get_frame false s =
      (invalidate_frame
        { s with next_frame_to_evict := Int.tmod (s.next_frame_to_evict + 1) NUMBER_OF_FRAMES }
        s.next_frame_to_evict, s.next_frame_to_evict) := by
  unfold get_frame
  rw [if_neg (by rw [NUMBER_OF_FRAMES_cast]; exact h)]
  rfl

theorem tmod_succ_range (a : Int) (n : Nat) (h0 : 0 ≤ a) (hn : 0 < n) :
    0 ≤ Int.tmod (a + 1) n ∧ Int.tmod (a + 1) n < n :=
  ⟨Int.tmod_nonneg _ (by omega), Int.tmod_lt_of_pos _ (by omega)⟩

/-- The frame chosen on a page fault is unowned afterwards, and the rest of
the invariant holds. -/
theorem get_frame_spec (lf : Bool) (bs : Int → Int) (s : State) (h : Inv bs s) (pf p : Int)
    (hpt : s.page_table p = -1) :
    InvExcept bs (get_frame lf { s with page_faults := pf }).1
        (get_frame lf { s with page_faults := pf }).2 ∧
      0 ≤ (get_frame lf { s with page_faults := pf }).2 ∧
      (get_frame lf { s with page_faults := pf }).2
        < (get_frame lf { s with page_faults := pf }).1.next_free_frame ∧
      (get_frame lf { s with page_faults := pf }).1.page_table p = -1 ∧
      (get_frame lf { s with page_faults := pf }).1.tlb_next = s.tlb_next ∧
      (get_frame lf { s with page_faults := pf }).1.elapsed_time = s.elapsed_time := by
  by_cases hlt : s.next_free_frame < 128
  · rw [get_frame_free lf { s with page_faults := pf } hlt]
    refine ⟨inv_free bs s h pf hlt, h.nff_lo, ?_, hpt, rfl, rfl⟩
    show s.next_free_frame < s.next_free_frame + 1
    omega
  · have hfull : s.next_free_frame = 128 := by have := h.nff_hi; omega
    cases lf with
    | true =>
      rw [get_frame_lru { s with page_faults := pf } hlt]
      obtain ⟨v0, v1⟩ := select_victim_frame_lru_range { s with page_faults := pf }
      have hi := inv_evict bs s h pf s.next_frame_to_evict _ hfull h.ev_lo h.ev_hi v0 v1
      have hf := invalidate_frame_frame { s with page_faults := pf }
        (select_victim_frame_lru { s with page_faults := pf })
      refine ⟨hi, v0, ?_, hf.2.2.2.2.2.2.2.2.2.2 p hpt, hf.2.2.2.1, hf.2.2.2.2.1⟩
      show _ < (invalidate_frame _ _).next_free_frame
      rw [hf.2.2.1]
      show _ < s.next_free_frame
      omega
    | false =>
      rw [get_frame_fifo { s with page_faults := pf } hlt]
      obtain ⟨e0, e1⟩ := tmod_succ_range s.next_frame_to_evict NUMBER_OF_FRAMES h.ev_lo
        (by decide)
      rw [NUMBER_OF_FRAMES_cast] at e1
      have hi := inv_evict bs s h pf _ s.next_frame_to_evict hfull e0 e1 h.ev_lo h.ev_hi
      have hf := invalidate_frame_frame
        { s with page_faults := pf,
                 next_frame_to_evict := Int.tmod (s.next_frame_to_evict + 1) NUMBER_OF_FRAMES }
        s.next_frame_to_evict
      refine ⟨hi, h.ev_lo, ?_, hf.2.2.2.2.2.2.2.2.2.2 p hpt, hf.2.2.2.1, hf.2.2.2.2.1⟩
      show _ < (invalidate_frame _ _).next_free_frame
      rw [hf.2.2.1]
      show s.next_frame_to_evict < s.next_free_frame
      have := h.ev_hi
      omega

/-- The page-fault branch keeps the invariant, maps the page to the returned
frame, and leaves no TLB entry for the page. -/
theorem page_fault_spec (lf : Bool) (bs : Int → Int) (s : State) (h : Inv bs s) (p : Int)
    (hp0 : 0 ≤ p) (hp1 : p < 256) (hpt : s.page_table p = -1) :
    Inv bs (page_fault lf bs s p).1 ∧
      (page_fault lf bs s p).1.page_table p = (page_fault lf bs s p).2 ∧
      0 ≤ (page_fault lf bs s p).2 ∧ (page_fault lf bs s p).2 < 128 ∧
      (page_fault lf bs s p).1.tlb_next = s.tlb_next ∧
      (page_fault lf bs s p).1.elapsed_time = s.elapsed_time ∧
      (∀ i, 0 ≤ i → i < 16 → ¬ tlb_match (page_fault lf bs s p).1.tlb p i) := by
  obtain ⟨hi, g0, g1, gpt, gtn, gel⟩ := get_frame_spec lf bs s h (s.page_faults + 1) p hpt
  have hl := inv_load bs _ _ p hi g0 g1 hp0 hp1 gpt
  refine ⟨hl, ?_, g0, ?_, gtn, gel, ?_⟩
  · show arr_set _ p _ p = _
    rw [arr_set_same]
    rfl
  · have := hi.nff_hi
    show (get_frame lf { s with page_faults := s.page_faults + 1 }).2 < 128
    omega
  · intro i h0 h1 hm
    have hm : tlb_match (get_frame lf { s with page_faults := s.page_faults + 1 }).1.tlb p i := hm
    obtain ⟨_, _, c, d⟩ := hi.tlb_ok i h0 h1 hm.1
    rw [hm.2, gpt] at d
    exact c d.symm

/-- Result of `tlb_lookup`: the first matching slot is refreshed and its frame
returned, or nothing matches, the state is unchanged and `-1` is returned. -/
theorem tlb_lookup_cases (s : State) (p : Int) :
    (∃ k, 0 ≤ k ∧ k < 16 ∧ tlb_match s.tlb p k ∧
        (∀ j, 0 ≤ j → j < k → ¬ tlb_match s.tlb p j) ∧
        tlb_lookup s p =
          ({ s with tlb := arr_set s.tlb k { s.tlb k with age := s.elapsed_time } },
            (s.tlb k).frame_number)) ∨
    ((∀ j, 0 ≤ j → j < 16 → ¬ tlb_match s.tlb p j) ∧ tlb_lookup s p = (s, -1)) := by
  unfold tlb_lookup
  rcases tlb_lookup_loop_spec s.tlb s.elapsed_time p TLB_SIZE 0 with
    ⟨k, a, b, c, d, e⟩ | ⟨a, b⟩
  · left
    rw [TLB_SIZE_cast] at b
    refine ⟨k, a, by omega, c, d, ?_⟩
    rw [e]
  · right
    rw [TLB_SIZE_cast] at a
    refine ⟨fun j h0 h1 => a j h0 (by omega), ?_⟩
    rw [b]

/-- Shape of the state after either TLB insert. -/
theorem tlb_insert_form (lt : Bool) (s : State) (p f : Int)
    (h0 : 0 ≤ s.tlb_next) (h1 : s.tlb_next < 16) :
    ∃ k e c, 0 ≤ k ∧ k < 16 ∧ 0 ≤ c ∧ c < 16 ∧
      e.valid = 1 ∧ e.page_number = p ∧ e.frame_number = f ∧
      (if lt then tlb_insert_lru s p f else tlb_insert s p f) =
        { s with tlb := arr_set s.tlb k e, tlb_next := c } := by
  cases lt with
  | true =>
    obtain ⟨k, a, b, c⟩ := tlb_insert_lru_loop_writes s p f TLB_SIZE 0 INT32_MAX 0
      (le_refl _) (le_refl _) (by rw [TLB_SIZE_cast]; norm_num)
    rw [TLB_SIZE_cast] at b
    refine ⟨k, { page_number := p, frame_number := f, valid := 1, age := s.elapsed_time },
      s.tlb_next, a, by omega, h0, h1, rfl, rfl, rfl, ?_⟩
    show tlb_insert_lru s p f = _
    unfold tlb_insert_lru
    rw [c]
    rfl
  | false =>
    obtain ⟨c0, c1⟩ := tmod_succ_range s.tlb_next TLB_SIZE h0 (by decide)
    rw [TLB_SIZE_cast] at c1
    exact ⟨s.tlb_next, _, _, h0, h1, c0, c1, rfl, rfl, rfl, rfl⟩

/-- The TLB-miss branch keeps the invariant and caches the page. -/
theorem tlb_miss_spec (lt lf : Bool) (bs : Int → Int) (s : State) (h : Inv bs s) (p : Int)
    (hp0 : 0 ≤ p) (hp1 : p < 256) (hmiss : ∀ j, 0 ≤ j → j < 16 → ¬ tlb_match s.tlb p j) :
    Inv bs (tlb_miss lt lf bs s p).1 ∧
      (tlb_miss lt lf bs s p).1.page_table p = (tlb_miss lt lf bs s p).2 ∧
      0 ≤ (tlb_miss lt lf bs s p).2 ∧ (tlb_miss lt lf bs s p).2 < 128 ∧
      (tlb_miss lt lf bs s p).1.elapsed_time = s.elapsed_time ∧
      (∃ k, 0 ≤ k ∧ k < 16 ∧ tlb_match (tlb_miss lt lf bs s p).1.tlb p k) := by
  -- the state and frame before the insert
  have key : ∀ (s1 : State) (f : Int), Inv bs s1 → s1.page_table p = f → 0 ≤ f → f < 128 →
      s1.elapsed_time = s.elapsed_time →
      (∀ j, 0 ≤ j → j < 16 → ¬ tlb_match s1.tlb p j) →
      Inv bs (if lt then tlb_insert_lru s1 p f else tlb_insert s1 p f) ∧
      (if lt then tlb_insert_lru s1 p f else tlb_insert s1 p f).page_table p = f ∧
      0 ≤ f ∧ f < 128 ∧
      (if lt then tlb_insert_lru s1 p f else tlb_insert s1 p f).elapsed_time = s.elapsed_time ∧
      (∃ k, 0 ≤ k ∧ k < 16 ∧
        tlb_match (if lt then tlb_insert_lru s1 p f else tlb_insert s1 p f).tlb p k) := by
    intro s1 f h1 hpt f0 f1 hel hm
    obtain ⟨k, e, c, k0, k1, c0, c1, ev, ep, ef, hform⟩ :=
      tlb_insert_form lt s1 p f h1.tn_lo h1.tn_hi
    rw [hform]
    refine ⟨?_, hpt, f0, f1, hel, k, k0, k1, ?_⟩
    · have := inv_set_tlb bs s1 h1 (arr_set s1.tlb k e) c s1.TLB_hits c0 c1
        (tlb_consistent_put _ _ _ _ h1.tlb_ok
          ⟨by rw [ep]; exact hp0, by rw [ep]; exact hp1, by rw [ef]; omega, by rw [ep, ef, hpt]⟩)
        (tlb_nodup_put _ _ _ h1.tlb_nd (fun i i0 i1 _ => by rw [ep]; exact hm i i0 i1))
      exact this
    · show tlb_match (arr_set s1.tlb k e) p k
      unfold tlb_match
      rw [arr_set_same, ev, ep]
      exact ⟨by norm_num, rfl⟩
  unfold tlb_miss
  by_cases hpt : s.page_table p = -1
  · simp only [if_pos hpt]
    obtain ⟨a, b, c, d, _, e, g⟩ := page_fault_spec lf bs s h p hp0 hp1 hpt
    exact key _ _ a b c d e g
  · simp only [if_neg hpt]
    rcases h.pt_range p hp0 hp1 with a | ⟨a, b⟩
    · exact absurd a hpt
    · exact key s _ h rfl a (by have := h.nff_hi; omega) rfl hmiss

/-- One resolution (lines 201-236) keeps the invariant; the frame it returns
is the one the page table holds for the page, and the page is cached
afterwards. -/
theorem resolve_spec (lt lf : Bool) (bs : Int → Int) (s : State) (h : Inv bs s) (p : Int)
    (hp0 : 0 ≤ p) (hp1 : p < 256) :
    Inv bs (resolve lt lf bs s p).1 ∧
      (resolve lt lf bs s p).1.page_table p = (resolve lt lf bs s p).2 ∧
      0 ≤ (resolve lt lf bs s p).2 ∧ (resolve lt lf bs s p).2 < 128 ∧
      (resolve lt lf bs s p).1.elapsed_time = s.elapsed_time ∧
      (∃ k, 0 ≤ k ∧ k < 16 ∧ tlb_match (resolve lt lf bs s p).1.tlb p k) := by
  rcases tlb_lookup_cases s p with ⟨k, k0, k1, hm, _, e⟩ | ⟨hmiss, e⟩
  · obtain ⟨a, b, c, d⟩ := h.tlb_ok k k0 k1 hm.1
    have hres : resolve lt lf bs s p =
        ({ s with tlb := arr_set s.tlb k { s.tlb k with age := s.elapsed_time },
                  TLB_hits := s.TLB_hits + 1 }, (s.tlb k).frame_number) := by
      unfold resolve
      rw [e]
      exact if_pos c
    rw [hres]
    have hT : ∀ i, (arr_set s.tlb k { s.tlb k with age := s.elapsed_time } i).valid
          = (s.tlb i).valid ∧
        (arr_set s.tlb k { s.tlb k with age := s.elapsed_time } i).page_number
          = (s.tlb i).page_number ∧
        (arr_set s.tlb k { s.tlb k with age := s.elapsed_time } i).frame_number
          = (s.tlb i).frame_number := by
      intro i
      by_cases hik : i = k
      · rw [hik, arr_set_same]; exact ⟨rfl, rfl, rfl⟩
      · rw [arr_set_other _ _ _ _ hik]; exact ⟨rfl, rfl, rfl⟩
    have hd : s.page_table p = (s.tlb k).frame_number := by rw [← hm.2]; exact d
    refine ⟨?_, hd, ?_, ?_, rfl, k, k0, k1, ?_⟩
    · exact inv_set_tlb bs s h _ s.tlb_next (s.TLB_hits + 1) h.tn_lo h.tn_hi
        (tlb_consistent_congr s.tlb _ _ h.tlb_ok (fun i _ _ hv =>
          ⟨by rw [(hT i).1] at hv; exact hv, (hT i).2.1, (hT i).2.2⟩))
        (tlb_nodup_congr s.tlb _ h.tlb_nd (fun i _ _ hv =>
          ⟨by rw [(hT i).1] at hv; exact hv, (hT i).2.1⟩))
    · rcases h.pt_range p hp0 hp1 with x | ⟨x, _⟩
      · rw [hd] at x; exact absurd x c
      · rw [hd] at x; exact x
    · rcases h.pt_range p hp0 hp1 with x | ⟨_, y⟩
      · rw [hd] at x; exact absurd x c
      · rw [hd] at y; have := h.nff_hi; omega
    · show tlb_match (arr_set s.tlb k { s.tlb k with age := s.elapsed_time }) p k
      unfold tlb_match
      rw [(hT k).1, (hT k).2.1]
      exact hm
  · have hres : resolve lt lf bs s p = tlb_miss lt lf bs s p := by
      unfold resolve
      rw [e]
      exact if_neg (fun hne => hne rfl)
    rw [hres]
    exact tlb_miss_spec lt lf bs s h p hp0 hp1 hmiss

/-- The invariant is kept by one iteration of the main loop. -/
theorem inv_translate (lt lf : Bool) (bs : Int → Int) (s : State) (a : Int) (h : Inv bs s) :
    Inv bs (translate lt lf bs s a).1 :=
  (resolve_spec lt lf bs (tick s) (inv_tick bs s h) (page_number_of a)
    (page_number_of_range a).1 (page_number_of_range a).2).1

/-- Every reachable state satisfies the invariant. -/
theorem inv_reachable (lt lf : Bool) (bs : Int → Int) (s : State)
    (h : Reachable lt lf bs s) : Inv bs s := by
  induction h with
  | start mem => exact inv_init bs mem
  | next s a _ ih => exact inv_translate lt lf bs s a ih

/-- The state after any run from the initial state is reachable. -/
theorem reachable_run (lt lf : Bool) (bs : Int → Int) (s : State) (as : List Int)
    (h : Reachable lt lf bs s) : Reachable lt lf bs (run lt lf bs s as) := by
  induction as generalizing s with
  | nil => exact h
  | cons a rest ih => exact ih _ (Reachable.next s a h)

/-- The hit branch of `resolve`. -/
theorem resolve_hit (lt lf : Bool) (bs : Int → Int) (s S : State) (p F : Int)
    (hl : tlb_lookup s p = (S, F)) (hF : F ≠ -1) :
    resolve lt lf bs s p = ({ S with TLB_hits := s.TLB_hits + 1 }, F) := by
  unfold resolve
  rw [hl]
  exact if_pos hF

/-- The miss branch of `resolve`. -/
theorem resolve_miss (lt lf : Bool) (bs : Int → Int) (s : State) (p : Int)
    (hl : tlb_lookup s p = (s, -1)) :
    resolve lt lf bs s p = tlb_miss lt lf bs s p := by
  unfold resolve
  rw [hl]
  exact if_neg (fun hne => hne rfl)

/-- The slot chosen by the LRU insert, stated for the loop in mid-flight. -/
theorem tlb_insert_lru_loop_slot (s : State) (p f : Int) (n : Nat) (i la li : Int)
    (hi0 : 0 ≤ i) (hprev : ∀ j, 0 ≤ j → j < i → (s.tlb j).valid ≠ 0)
    (hli0 : 0 ≤ li) (hli1 : li ≤ i)
    (hmin : ∀ j, 0 ≤ j → j < i → la ≤ (s.tlb j).age)
    (hfirst : ∀ j, 0 ≤ j → j < li → la < (s.tlb j).age)
    (hpos : 0 < i → li < i ∧ la = (s.tlb li).age)
    (hzero : i = 0 → la = INT32_MAX)
    (hage : (s.tlb 0).age ≤ INT32_MAX)
    (hn : 0 < i + n) :
    ∃ k, 0 ≤ k ∧ k < i + n ∧ tlb_insert_lru_loop s p f n i la li = tlb_write s k p f ∧
      (((s.tlb k).valid = 0 ∧ ∀ j, 0 ≤ j → j < k → (s.tlb j).valid ≠ 0) ∨
       ((∀ j, 0 ≤ j → j < i + n → (s.tlb j).valid ≠ 0) ∧
        (∀ j, 0 ≤ j → j < i + n → (s.tlb k).age ≤ (s.tlb j).age) ∧
        (∀ j, 0 ≤ j → j < k → (s.tlb k).age < (s.tlb j).age))) := by
  induction n generalizing i la li with
  | zero =>
    have hi : 0 < i := by simpa using hn
    obtain ⟨a, b⟩ := hpos hi
    refine ⟨li, hli0, by simpa using a, rfl, Or.inr ⟨?_, ?_, ?_⟩⟩
    · intro j j0 j1; exact hprev j j0 (by simpa using j1)
    · intro j j0 j1; rw [← b]; exact hmin j j0 (by simpa using j1)
    · intro j j0 j1; rw [← b]; exact hfirst j j0 j1
  | succ n ih =>
    by_cases hv : (s.tlb i).valid = 0
    · refine ⟨i, hi0, by push_cast; omega, ?_, Or.inl ⟨hv, hprev⟩⟩
      simp only [tlb_insert_lru_loop, if_pos hv]
    · have hprev2 : ∀ j, 0 ≤ j → j < i + 1 → (s.tlb j).valid ≠ 0 := by
        intro j j0 j1
        by_cases hji : j = i
        · rw [hji]; exact hv
        · exact hprev j j0 (by omega)
      by_cases hlt : (s.tlb i).age < la
      · have hstep : tlb_insert_lru_loop s p f (n + 1) i la li
            = tlb_insert_lru_loop s p f n (i + 1) (s.tlb i).age i := by
          simp only [tlb_insert_lru_loop, if_neg hv, if_pos hlt]
        obtain ⟨k, k0, k1, e, hk⟩ := ih (i + 1) (s.tlb i).age i (by omega) hprev2 hi0
          (by omega)
          (by
            intro j j0 j1
            by_cases hji : j = i
            · rw [hji]
            · have := hmin j j0 (by omega); omega)
          (by intro j j0 j1; have := hmin j j0 j1; omega)
          (fun _ => ⟨by omega, rfl⟩)
          (by intro h; omega)
          (by omega)
        refine ⟨k, k0, by push_cast; omega, by rw [hstep, e], ?_⟩
        have hr : i + 1 + (n : Int) = i + ((n + 1 : Nat) : Int) := by push_cast; omega
        rw [hr] at hk
        exact hk
      · have hstep : tlb_insert_lru_loop s p f (n + 1) i la li
            = tlb_insert_lru_loop s p f n (i + 1) la li := by
          simp only [tlb_insert_lru_loop, if_neg hv, if_neg hlt]
        obtain ⟨k, k0, k1, e, hk⟩ := ih (i + 1) la li (by omega) hprev2 hli0
          (by omega)
          (by
            intro j j0 j1
            by_cases hji : j = i
            · rw [hji]; omega
            · exact hmin j j0 (by omega))
          hfirst
          (by
            intro _
            by_cases hi : i = 0
            · have hl : li = 0 := by omega
              have hm := hzero hi
              rw [hi] at hlt
              rw [hl]
              exact ⟨by omega, by omega⟩
            · obtain ⟨a, b⟩ := hpos (by omega)
              exact ⟨by omega, b⟩)
          (by intro h; omega)
          (by omega)
        refine ⟨k, k0, by push_cast; omega, by rw [hstep, e], ?_⟩
        have hr : i + 1 + (n : Int) = i + ((n + 1 : Nat) : Int) := by push_cast; omega
        rw [hr] at hk
        exact hk


/-- What `get_frame` leaves alone. -/
theorem get_frame_frame (lf : Bool) (s : State) :
    (get_frame lf s).1.physical_memory = s.physical_memory ∧
    (get_frame lf s).1.free_frame_list = s.free_frame_list ∧
    (get_frame lf s).1.tlb_next = s.tlb_next ∧
    (get_frame lf s).1.elapsed_time = s.elapsed_time ∧
    (get_frame lf s).1.frame_age = s.frame_age ∧
    (get_frame lf s).1.page_faults = s.page_faults ∧
    (get_frame lf s).1.TLB_hits = s.TLB_hits ∧
    (get_frame lf s).1.total_access = s.total_access := by
  by_cases hlt : s.next_free_frame < 128
  · rw [get_frame_free lf s hlt]
    exact ⟨rfl, rfl, rfl, rfl, rfl, rfl, rfl, rfl⟩
  · cases lf with
    | true =>
      rw [get_frame_lru s hlt]
      obtain ⟨a, b, _, c, d, _, e, f, g, i, _⟩ :=
        invalidate_frame_frame s (select_victim_frame_lru s)
      exact ⟨a, b, c, d, e, f, g, i⟩
    | false =>
      rw [get_frame_fifo s hlt]
      obtain ⟨a, b, _, c, d, _, e, f, g, i, _⟩ := invalidate_frame_frame
        { s with next_frame_to_evict := Int.tmod (s.next_frame_to_evict + 1) NUMBER_OF_FRAMES }
        s.next_frame_to_evict
      exact ⟨a, b, c, d, e, f, g, i⟩

/-- In a state that satisfies the invariant, a page that is not mapped is not cached. -/
theorem unmapped_not_cached (bs : Int → Int) (s : State) (h : Inv bs s) (p : Int)
    (hpt : s.page_table p = -1) : ∀ j, 0 ≤ j → j < 16 → ¬ tlb_match s.tlb p j := by
  intro j j0 j1 hm
  obtain ⟨_, _, c, d⟩ := h.tlb_ok j j0 j1 hm.1
  rw [hm.2, hpt] at d
  exact c d.symm

/-- The effect of a translation that takes the page-fault path, in terms of
the frame `get_frame` hands out. -/
theorem translate_fault (lt lf : Bool) (bs : Int → Int) (s : State) (a : Int)
    (h : Inv bs s) (hpt : s.page_table (page_number_of a) = -1) :
    (translate lt lf bs s a).1.page_table =
        arr_set (get_frame lf { tick s with page_faults := s.page_faults + 1 }).1.page_table
          (page_number_of a)
          (get_frame lf { tick s with page_faults := s.page_faults + 1 }).2 ∧
      (translate lt lf bs s a).2.frame_number =
        (get_frame lf { tick s with page_faults := s.page_faults + 1 }).2 ∧
      (translate lt lf bs s a).1.physical_memory =
        fread_page bs s.physical_memory (page_number_of a)
          (get_frame lf { tick s with page_faults := s.page_faults + 1 }).2 ∧
      (translate lt lf bs s a).1.free_frame_list =
        arr_set s.free_frame_list
          (get_frame lf { tick s with page_faults := s.page_faults + 1 }).2 1 ∧
      (translate lt lf bs s a).1.next_free_frame =
        (get_frame lf { tick s with page_faults := s.page_faults + 1 }).1.next_free_frame ∧
      (translate lt lf bs s a).1.next_frame_to_evict =
        (get_frame lf { tick s with page_faults := s.page_faults + 1 }).1.next_frame_to_evict ∧
      (translate lt lf bs s a).1.frame_age = s.frame_age ∧
      (translate lt lf bs s a).1.page_faults = s.page_faults + 1 ∧
      (translate lt lf bs s a).1.TLB_hits = s.TLB_hits ∧
      (translate lt lf bs s a).1.total_access = s.total_access + 1 ∧
      (translate lt lf bs s a).1.elapsed_time = s.elapsed_time + 1 := by
  have ht := inv_tick bs s h
  have hmiss := unmapped_not_cached bs (tick s) ht (page_number_of a) hpt
  have hl : tlb_lookup (tick s) (page_number_of a) = (tick s, -1) := by
    rcases tlb_lookup_cases (tick s) (page_number_of a) with ⟨k, k0, k1, km, _, _⟩ | ⟨_, e⟩
    · exact absurd km (hmiss k k0 k1)
    · exact e
  have htr : (translate lt lf bs s a).1 =
      (tlb_miss lt lf bs (tick s) (page_number_of a)).1 := by
    show (resolve lt lf bs (tick s) (page_number_of a)).1 = _
    rw [resolve_miss lt lf bs (tick s) _ hl]
  have hfr : (translate lt lf bs s a).2.frame_number =
      (tlb_miss lt lf bs (tick s) (page_number_of a)).2 := by
    show (resolve lt lf bs (tick s) (page_number_of a)).2 = _
    rw [resolve_miss lt lf bs (tick s) _ hl]
  have hpf : (page_fault lf bs (tick s) (page_number_of a)).2 =
      (get_frame lf { tick s with page_faults := s.page_faults + 1 }).2 := rfl
  have hmiss2 : tlb_miss lt lf bs (tick s) (page_number_of a) =
      ((if lt then
          tlb_insert_lru (page_fault lf bs (tick s) (page_number_of a)).1 (page_number_of a)
            (page_fault lf bs (tick s) (page_number_of a)).2
        else
          tlb_insert (page_fault lf bs (tick s) (page_number_of a)).1 (page_number_of a)
            (page_fault lf bs (tick s) (page_number_of a)).2),
        (page_fault lf bs (tick s) (page_number_of a)).2) := by
    unfold tlb_miss
    have hpt2 : (tick s).page_table (page_number_of a) = -1 := hpt
    simp only [if_pos hpt2]
  obtain ⟨hi, _⟩ := page_fault_spec lf bs (tick s) ht (page_number_of a)
    (page_number_of_range a).1 (page_number_of_range a).2 hpt
  obtain ⟨k, e, c, _, _, _, _, _, _, _, hform⟩ :=
    tlb_insert_form lt (page_fault lf bs (tick s) (page_number_of a)).1 (page_number_of a)
      (page_fault lf bs (tick s) (page_number_of a)).2 hi.tn_lo hi.tn_hi
  rw [htr, hfr, hmiss2, hform]
  obtain ⟨g1, g2, _, g4, g5, g6, g7, g8⟩ :=
    get_frame_frame lf { tick s with page_faults := s.page_faults + 1 }
  refine ⟨rfl, rfl, ?_, ?_, rfl, rfl, g5, g6, g7, g8, g4⟩
  · show fread_page bs
        (get_frame lf { tick s with page_faults := s.page_faults + 1 }).1.physical_memory _ _
      = _
    rw [g1]
    rfl
  · show arr_set
        (get_frame lf { tick s with page_faults := s.page_faults + 1 }).1.free_frame_list _ _
      = _
    rw [g2]
    rfl

/-- The byte a translation reads is the backing-store byte of the address. -/
theorem translate_value (lt lf : Bool) (bs : Int → Int) (s : State) (h : Inv bs s) (A : Int) :
    (translate lt lf bs s A).2.value = bs (page_number_of A * 256 + offset_of A) := by
  obtain ⟨hi, hpt, f0, _, _, _⟩ :=
    resolve_spec lt lf bs (tick s) (inv_tick _ s h) (page_number_of A)
      (page_number_of_range A).1 (page_number_of_range A).2
  have hm := hi.mem_ok (page_number_of A) (page_number_of_range A).1 (page_number_of_range A).2
    (by rw [hpt]; omega) (offset_of A) (offset_of_range A).1 (offset_of_range A).2
  rw [hpt] at hm
  exact hm

/-- A 16-bit address is recovered from its page number and offset. -/
theorem decompose_lossless (A : Int) (h0 : 0 ≤ A) (h1 : A ≤ 65535) :
    page_number_of A * 256 + offset_of A = A := by
  obtain ⟨n, rfl⟩ := Int.eq_ofNat_of_zero_le h0
  rw [page_number_of_nat, offset_of_nat]
  omega

theorem run_append (lt lf : Bool) (bs : Int → Int) (s : State) (as cs : List Int) :
    run lt lf bs s (as ++ cs) = run lt lf bs (run lt lf bs s as) cs := by
  induction as generalizing s with
  | nil => rfl
  | cons a rest ih => exact ih _

/-- While frames are free, pairwise distinct pages are given the frames
0, 1, 2, ... in the order of their first access, and no victim is selected. -/
theorem fill_frames (lt lf : Bool) (bs mem : Int → Int) (as : List Int)
    (hnd : (as.map page_number_of).Nodup) (hlen : as.length ≤ 128) :
    (run lt lf bs (init mem) as).next_free_frame = as.length ∧
      (run lt lf bs (init mem) as).next_frame_to_evict = 0 ∧
      (∀ (j : Nat) (x : Int), as[j]? = some x →
        (run lt lf bs (init mem) as).page_table (page_number_of x) = j) ∧
      (∀ P, P ∉ as.map page_number_of → (run lt lf bs (init mem) as).page_table P = -1) := by
  induction as using List.reverseRecOn with
  | nil =>
    refine ⟨rfl, rfl, ?_, fun P _ => rfl⟩
    intro j x hx
    simp at hx
  | append_singleton as a ih =>
    rw [List.map_append, List.nodup_append] at hnd
    obtain ⟨hnd1, _, hdis⟩ := hnd
    have hlen1 : as.length + 1 ≤ 128 := by simpa using hlen
    obtain ⟨i1, i2, i3, i4⟩ := ih hnd1 (by omega)
    have hnew : page_number_of a ∉ as.map page_number_of := by
      intro hin
      exact hdis hin (by simp)
    have hreach : Reachable lt lf bs (run lt lf bs (init mem) as) :=
      reachable_run lt lf bs _ as (Reachable.start mem)
    have hinv := inv_reachable lt lf bs _ hreach
    have hpt := i4 _ hnew
    obtain ⟨t1, _, _, _, t5, t6, _⟩ := translate_fault lt lf bs _ a hinv hpt
    have hrun : run lt lf bs (init mem) (as ++ [a]) =
        (translate lt lf bs (run lt lf bs (init mem) as) a).1 := by
      rw [run_append]; rfl
    have hfree : (run lt lf bs (init mem) as).next_free_frame < 128 := by rw [i1]; omega
    have hg := get_frame_free lf
      { tick (run lt lf bs (init mem) as) with
        page_faults := (run lt lf bs (init mem) as).page_faults + 1 } hfree
    rw [hg] at t1 t5 t6
    rw [hrun, t1, t5, t6]
    refine ⟨?_, i2, ?_, ?_⟩
    · show (run lt lf bs (init mem) as).next_free_frame + 1 = _
      rw [i1]; simp
    · intro j x hx
      show arr_set (run lt lf bs (init mem) as).page_table (page_number_of a)
        (run lt lf bs (init mem) as).next_free_frame (page_number_of x) = j
      by_cases hj : j < as.length
      · rw [List.getElem?_append_left hj] at hx
        have hne : page_number_of x ≠ page_number_of a := by
          intro he
          apply hnew
          rw [← he]
          exact List.mem_map_of_mem _ (List.getElem?_mem hx)
        rw [arr_set_other _ _ _ _ hne]
        exact i3 j x hx
      · rw [List.getElem?_append_right (by omega)] at hx
        have hj2 : j = as.length := by
          by_contra hne
          have : j - as.length = (j - as.length - 1) + 1 := by omega
          rw [this] at hx
          simp at hx
        rw [hj2] at hx ⊢
        simp at hx
        rw [← hx, arr_set_same, i1]
    · intro P hP
      show arr_set (run lt lf bs (init mem) as).page_table (page_number_of a)
        (run lt lf bs (init mem) as).next_free_frame P = -1
      have hP : P ∉ as.map page_number_of ∧ P ≠ page_number_of a := by
        simp only [List.map_append, List.mem_append, List.map_cons, List.map_nil,
          List.mem_singleton, not_or] at hP
        exact hP
      rw [arr_set_other _ _ _ _ hP.2]
      exact i4 P hP.1

/-- No statement of the program stores into `frame_age` after the
initialisation, so the LRU victim scan returns frame 0 in every reachable state. -/
theorem lru_victim_is_frame_zero (lt lf : Bool) (bs : Int → Int) (s : State)
    (h : Reachable lt lf bs s) :
    (∀ i, s.frame_age i = 0) ∧ select_victim_frame_lru s = 0 :=
  ⟨(inv_reachable lt lf bs s h).age_zero,
    select_victim_frame_lru_zero s (inv_reachable lt lf bs s h).age_zero⟩

/-- The cursor of the FIFO insert after one call. -/
theorem tlb_insert_cursor (s : State) (p f : Int) (h0 : 0 ≤ s.tlb_next) :
    (tlb_insert s p f).tlb_next = (s.tlb_next + 1) % 16 := by
  show Int.tmod (s.tlb_next + 1) TLB_SIZE = _
  rw [Int.tmod_eq_emod (by omega) (by rw [TLB_SIZE_cast]; norm_num), TLB_SIZE_cast]

/-- A run of at most sixteen FIFO inserts: insert number `k` lands in slot
`(c + k) % 16`, the other slots keep their contents, and the cursor ends at
`(c + length) % 16`. -/
theorem tlb_insert_seq_spec (ps : List (Int × Int)) (s : State)
    (h0 : 0 ≤ s.tlb_next) (h1 : s.tlb_next < 16) (hlen : ps.length ≤ 16) :
    (tlb_insert_seq s ps).tlb_next = (s.tlb_next + ps.length) % 16 ∧
      (∀ (k : Nat) (x : Int × Int), ps[k]? = some x →
        (tlb_insert_seq s ps).tlb ((s.tlb_next + k) % 16) =
          { s.tlb ((s.tlb_next + k) % 16) with
            valid := 1, page_number := x.1, frame_number := x.2 }) ∧
      (∀ i : Int, (∀ k : Nat, k < ps.length → i ≠ (s.tlb_next + k) % 16) →
        (tlb_insert_seq s ps).tlb i = s.tlb i) := by
  induction ps generalizing s with
  | nil =>
    refine ⟨?_, ?_, fun i _ => rfl⟩
    · show s.tlb_next = _
      simp only [List.length_nil, Nat.cast_zero, add_zero]
      omega
    · intro k x hx
      simp at hx
  | cons y rest ih =>
    have hc := tlb_insert_cursor s y.1 y.2 h0
    have hlen2 : rest.length + 1 ≤ 16 := by simpa using hlen
    obtain ⟨a, b, c⟩ := ih (tlb_insert s y.1 y.2) (by rw [hc]; omega) (by rw [hc]; omega)
      (by omega)
    rw [hc] at a b c
    have hseq : tlb_insert_seq s (y :: rest) = tlb_insert_seq (tlb_insert s y.1 y.2) rest := rfl
    have hcast : (((y :: rest).length : Nat) : Int) = (rest.length : Int) + 1 := by
      simp
    have hold : ∀ i : Int, i ≠ s.tlb_next → (tlb_insert s y.1 y.2).tlb i = s.tlb i :=
      fun i hi => arr_set_other _ _ _ _ hi
    rw [hseq]
    refine ⟨?_, ?_, ?_⟩
    · rw [a, hcast]; omega
    · intro k x hx
      cases k with
      | zero =>
        have hx : y = x := by simpa using hx
        have hi : (s.tlb_next + ((0 : Nat) : Int)) % 16 = s.tlb_next := by
          simp only [Nat.cast_zero, add_zero]; omega
        rw [hi, c s.tlb_next (fun k hk => by omega), ← hx]
        exact arr_set_same _ _ _
      | succ k =>
        have hx : rest[k]? = some x := by simpa using hx
        have hk : k < rest.length := by
          rcases List.getElem?_eq_some.mp hx with ⟨h, _⟩
          exact h
        have hi : (s.tlb_next + ((k + 1 : Nat) : Int)) % 16
            = ((s.tlb_next + 1) % 16 + (k : Int)) % 16 := by
          push_cast; omega
        rw [hi, b k x hx, hold _ (by omega)]
    · intro i hi
      have h0i : i ≠ s.tlb_next := by
        have := hi 0 (by simp)
        simp only [Nat.cast_zero, add_zero] at this
        omega
      rw [c i (fun k hk => by
        have := hi (k + 1) (by simp; omega)
        push_cast at this
        omega)]
      exact hold i h0i

/-- The effect of a translation of a mapped page (TLB hit or page-table hit):
nothing but the TLB, its cursor and the counters changes, and the frame used
is the one in the page table. -/
theorem translate_no_fault (lt lf : Bool) (bs : Int → Int) (s : State) (a : Int)
    (h : Inv bs s) (hpt : s.page_table (page_number_of a) ≠ -1) :
    (translate lt lf bs s a).1.page_table = s.page_table ∧
      (translate lt lf bs s a).2.frame_number = s.page_table (page_number_of a) ∧
      (translate lt lf bs s a).1.physical_memory = s.physical_memory ∧
      (translate lt lf bs s a).1.free_frame_list = s.free_frame_list ∧
      (translate lt lf bs s a).1.next_free_frame = s.next_free_frame ∧
      (translate lt lf bs s a).1.next_frame_to_evict = s.next_frame_to_evict ∧
      (translate lt lf bs s a).1.frame_age = s.frame_age ∧
      (translate lt lf bs s a).1.page_faults = s.page_faults ∧
      (translate lt lf bs s a).1.total_access = s.total_access + 1 ∧
      (translate lt lf bs s a).1.elapsed_time = s.elapsed_time + 1 := by
  have ht := inv_tick bs s h
  have htr : (translate lt lf bs s a).1 = (resolve lt lf bs (tick s) (page_number_of a)).1 := rfl
  have hfr : (translate lt lf bs s a).2.frame_number =
      (resolve lt lf bs (tick s) (page_number_of a)).2 := rfl
  rw [htr, hfr]
  rcases tlb_lookup_cases (tick s) (page_number_of a) with ⟨k, k0, k1, km, _, e⟩ | ⟨_, e⟩
  · obtain ⟨_, _, c, d⟩ := ht.tlb_ok k k0 k1 km.1
    rw [resolve_hit lt lf bs (tick s) _ _ _ e c]
    refine ⟨rfl, ?_, rfl, rfl, rfl, rfl, rfl, rfl, rfl, rfl⟩
    rw [km.2] at d
    exact d.symm
  · rw [resolve_miss lt lf bs (tick s) _ e]
    have hpt2 : ¬ (tick s).page_table (page_number_of a) = -1 := hpt
    have hm : tlb_miss lt lf bs (tick s) (page_number_of a) =
        ((if lt then tlb_insert_lru (tick s) (page_number_of a)
              ((tick s).page_table (page_number_of a))
          else tlb_insert (tick s) (page_number_of a)
              ((tick s).page_table (page_number_of a))),
          (tick s).page_table (page_number_of a)) := by
      unfold tlb_miss
      simp only [if_neg hpt2]
    obtain ⟨k, e, c, _, _, _, _, _, _, _, hform⟩ :=
      tlb_insert_form lt (tick s) (page_number_of a) ((tick s).page_table (page_number_of a))
        ht.tn_lo ht.tn_hi
    rw [hm, hform]
    exact ⟨rfl, rfl, rfl, rfl, rfl, rfl, rfl, rfl, rfl, rfl⟩

/-- In a state that satisfies the invariant the page-fault branch is taken
exactly for the unmapped pages. -/
theorem page_fault_path_iff (bs : Int → Int) (s : State) (h : Inv bs s) (a : Int) :
    page_fault_path s a ↔ s.page_table (page_number_of a) = -1 := by
  constructor
  · intro hp
    exact hp.2
  · intro hpt
    have hmiss := unmapped_not_cached bs (tick s) (inv_tick bs s h) (page_number_of a) hpt
    rcases tlb_lookup_cases (tick s) (page_number_of a) with ⟨k, k0, k1, km, _, _⟩ | ⟨_, e⟩
    · exact absurd km (hmiss k k0 k1)
    · unfold page_fault_path
      rw [e]
      exact ⟨rfl, hpt⟩

/-- When no frame is free `get_frame` leaves `next_free_frame` alone. -/
theorem get_frame_full_nff (lf : Bool) (s : State) (h : ¬ s.next_free_frame < 128) :
    (get_frame lf s).1.next_free_frame = s.next_free_frame := by
  cases lf with
  | true =>
    rw [get_frame_lru s h]
    exact (invalidate_frame_frame s (select_victim_frame_lru s)).2.2.1
  | false =>
    rw [get_frame_fifo s h]
    exact (invalidate_frame_frame
      { s with next_frame_to_evict := Int.tmod (s.next_frame_to_evict + 1) NUMBER_OF_FRAMES }
      s.next_frame_to_evict).2.2.1

/-- Counters in reachable states: the clock equals the number of accesses, and
`next_free_frame` is the number of page faults until it reaches 128. -/
theorem reachable_counts (lt lf : Bool) (bs : Int → Int) (s : State)
    (h : Reachable lt lf bs s) :
    0 ≤ s.total_access ∧ s.elapsed_time = s.total_access ∧
      s.next_free_frame ≤ s.page_faults ∧
      (s.next_free_frame = s.page_faults ∨ s.next_free_frame = 128) := by
  induction h with
  | start mem => exact ⟨le_refl _, rfl, le_refl _, Or.inl rfl⟩
  | next s a hr ih =>
    obtain ⟨c1, c2, c3, c4⟩ := ih
    have hinv := inv_reachable lt lf bs s hr
    by_cases hpt : s.page_table (page_number_of a) = -1
    · obtain ⟨_, _, _, _, t5, _, _, t8, _, t10, t11⟩ := translate_fault lt lf bs s a hinv hpt
      rw [t5, t8, t10, t11]
      refine ⟨by omega, by omega, ?_, ?_⟩
      · by_cases hlt : s.next_free_frame < 128
        · rw [get_frame_free lf { tick s with page_faults := s.page_faults + 1 } hlt]
          show s.next_free_frame + 1 ≤ s.page_faults + 1
          omega
        · rw [get_frame_full_nff lf { tick s with page_faults := s.page_faults + 1 } hlt]
          show s.next_free_frame ≤ s.page_faults + 1
          omega
      · by_cases hlt : s.next_free_frame < 128
        · rw [get_frame_free lf { tick s with page_faults := s.page_faults + 1 } hlt]
          left
          show s.next_free_frame + 1 = s.page_faults + 1
          omega
        · rw [get_frame_full_nff lf { tick s with page_faults := s.page_faults + 1 } hlt]
          right
          show s.next_free_frame = 128
          have := hinv.nff_hi
          omega
    · obtain ⟨_, _, _, _, t5, _, _, t8, t9, t10⟩ := translate_no_fault lt lf bs s a hinv hpt
      rw [t5, t8, t9, t10]
      exact ⟨by omega, by omega, c3, c4⟩

/-- Every page fault of a reachable state maps the page and marks the frame
used, but leaves the frame's age at its initial value 0 while the clock is
positive: the fault-in never stamps `frame_age`. -/
theorem fault_in_never_stamps (lt lf : Bool) (bs : Int → Int) (s : State) (a : Int)
    (h : Reachable lt lf bs s) (hf : page_fault_path s a) :
    (translate lt lf bs s a).1.page_table (page_number_of a)
        = (translate lt lf bs s a).2.frame_number ∧
      (translate lt lf bs s a).1.free_frame_list (translate lt lf bs s a).2.frame_number = 1 ∧
      (translate lt lf bs s a).1.frame_age (translate lt lf bs s a).2.frame_number = 0 ∧
      0 < (translate lt lf bs s a).1.elapsed_time := by
  have hinv := inv_reachable lt lf bs s h
  have hpt := (page_fault_path_iff bs s hinv a).mp hf
  obtain ⟨t1, t2, _, t4, _, _, t7, _, _, _, t11⟩ := translate_fault lt lf bs s a hinv hpt
  obtain ⟨c1, c2, _, _⟩ := reachable_counts lt lf bs s h
  rw [t1, t2, t4, t7, t11]
  exact ⟨arr_set_same _ _ _, arr_set_same _ _ _, hinv.age_zero _, by omega⟩

/-- A run over a non-empty address list ends with a positive access count. -/
theorem run_total_access_pos (lt lf : Bool) (bs mem : Int → Int) (as : List Int)
    (hne : as ≠ []) : 0 < (run lt lf bs (init mem) as).total_access := by
  induction as using List.reverseRecOn with
  | nil => exact absurd rfl hne
  | append_singleton as a _ =>
    have hr := reachable_run lt lf bs (init mem) as (Reachable.start mem)
    have hc := (reachable_counts lt lf bs _ hr).1
    have hinv := inv_reachable lt lf bs _ hr
    have hrun : run lt lf bs (init mem) (as ++ [a]) =
        (translate lt lf bs (run lt lf bs (init mem) as) a).1 := by
      rw [run_append]; rfl
    rw [hrun]
    by_cases hpt : (run lt lf bs (init mem) as).page_table (page_number_of a) = -1
    · rw [(translate_fault lt lf bs _ a hinv hpt).2.2.2.2.2.2.2.2.2.1]
      omega
    · rw [(translate_no_fault lt lf bs _ a hinv hpt).2.2.2.2.2.2.2.2.1]
      omega

/-- Invalidating a page in the TLB twice is the same as doing it once. -/
theorem invalidate_tlb_loop_idem (page : Int) (n : Nat) (tlb : Int → tlb_entry) :
    invalidate_tlb_loop page n 0 (invalidate_tlb_loop page n 0 tlb) =
      invalidate_tlb_loop page n 0 tlb := by
  funext j
  have key := invalidate_tlb_loop_apply page n 0 tlb j
  rw [invalidate_tlb_loop_apply page n 0 (invalidate_tlb_loop page n 0 tlb) j]
  by_cases hd : 0 ≤ j ∧ j < 0 + (n : Int) ∧ tlb_match tlb page j
  · rw [if_pos hd] at key
    have hnm : ¬ (0 ≤ j ∧ j < 0 + (n : Int) ∧
        tlb_match (invalidate_tlb_loop page n 0 tlb) page j) := by
      rintro ⟨_, _, c⟩
      unfold tlb_match at c
      rw [key] at c
      exact c.1 rfl
    rw [if_neg hnm]
  · rw [if_neg hd] at key
    have hnm : ¬ (0 ≤ j ∧ j < 0 + (n : Int) ∧
        tlb_match (invalidate_tlb_loop page n 0 tlb) page j) := by
      rintro ⟨a, b, c⟩
      unfold tlb_match at c
      rw [key] at c
      exact hd ⟨a, b, c⟩
    rw [if_neg hnm]

/-- Invalidating a page that no slot of the TLB caches changes nothing. -/
theorem invalidate_tlb_loop_absent (page : Int) (tlb : Int → tlb_entry)
    (h : ∀ i, 0 ≤ i → i < 16 → ¬ tlb_match tlb page i) :
    invalidate_tlb_loop page TLB_SIZE 0 tlb = tlb := by
  funext j
  rw [invalidate_tlb_loop_apply]
  rw [if_neg]
  rintro ⟨a, b, c⟩
  rw [TLB_SIZE_cast] at b
  exact h j a (by omega) c

theorem arr_set_idem {α : Type} (a : Int → α) (i : Int) (v : α) :
    arr_set (arr_set a i v) i v = arr_set a i v := by
  funext j
  by_cases h : j = i
  · rw [h, arr_set_same, arr_set_same]
  · rw [arr_set_other _ _ _ _ h, arr_set_other _ _ _ _ h]

/-- Injectivity of the page table on mapped pages, in the form used by the
statements about `invalidate_frame`. -/
theorem injective_on_mapped_pages (lt lf : Bool) (bs : Int → Int) (s : State)
    (h : Reachable lt lf bs s) :
    ∀ P Q : Int, 0 ≤ P → P < PAGE_TABLE_SIZE → 0 ≤ Q → Q < PAGE_TABLE_SIZE → P ≠ Q →
      s.page_table P ≠ -1 → s.page_table Q ≠ -1 → s.page_table P ≠ s.page_table Q := by
  intro P Q hP0 hP1 hQ0 hQ1 hPQ hP _ heq
  rw [PAGE_TABLE_SIZE_cast] at hP1 hQ1
  exact hPQ ((inv_reachable lt lf bs s h).pt_inj P Q hP0 hP1 hQ0 hQ1 hP heq)

/-- Invalidating a frame below `next_free_frame` clears the one page that
owns it, in any state that shares its page table with a state satisfying the
invariant. -/
theorem invalidate_owned (bs : Int → Int) (s t : State) (v : Int) (h : Inv bs s)
    (hpt : t.page_table = s.page_table) (v0 : 0 ≤ v) (v1 : v < s.next_free_frame) :
    ∃ P : Int, 0 ≤ P ∧ P < 256 ∧ s.page_table P = v ∧
      (∀ Q : Int, 0 ≤ Q → Q < 256 → s.page_table Q = v → Q = P) ∧
      (invalidate_frame t v).page_table = arr_set s.page_table P (-1) ∧
      (invalidate_frame t v).tlb = invalidate_tlb_loop P TLB_SIZE 0 t.tlb := by
  obtain ⟨P1, a, b, c⟩ := h.owner v v0 v1 (by omega)
  rcases invalidate_frame_cases t v with ⟨P, P0, P1', hP, _, e⟩ | ⟨hnone, _⟩
  · rw [hpt] at hP
    refine ⟨P, P0, P1', hP, ?_, ?_, ?_⟩
    · intro Q Q0 Q1 hQ
      exact h.pt_inj Q P Q0 Q1 P0 P1' (by rw [hQ]; omega) (by rw [hQ, hP])
    · rw [e]
      show arr_set t.page_table P (-1) = _
      rw [hpt]
    · rw [e]
  · rw [hpt] at hnone
    exact absurd c (hnone P1 a b)

/-- In a duplicate-free TLB, `invalidate_frame` clears the valid flag of at most one slot. -/
theorem invalidate_clears_at_most_one (t : State) (v : Int) (hnd : tlb_nodup t.tlb)
    (i j : Int) (i0 : 0 ≤ i) (i1 : i < 16) (j0 : 0 ≤ j) (j1 : j < 16)
    (hi : (t.tlb i).valid ≠ 0 ∧ ((invalidate_frame t v).tlb i).valid = 0)
    (hj : (t.tlb j).valid ≠ 0 ∧ ((invalidate_frame t v).tlb j).valid = 0) : i = j := by
  rcases invalidate_frame_cases t v with ⟨P, _, _, _, _, e⟩ | ⟨_, e⟩
  · rw [e] at hi hj
    have key : ∀ k : Int, (t.tlb k).valid ≠ 0 →
        (invalidate_tlb_loop P TLB_SIZE 0 t.tlb k).valid = 0 → (t.tlb k).page_number = P := by
      intro k hk1 hk2
      rw [invalidate_tlb_loop_apply] at hk2
      by_cases hc : 0 ≤ k ∧ k < 0 + ((TLB_SIZE : Nat) : Int) ∧ tlb_match t.tlb P k
      · exact hc.2.2.2
      · rw [if_neg hc] at hk2
        exact absurd hk2 hk1
    have pi := key i hi.1 hi.2
    have pj := key j hj.1 hj.2
    exact hnd i j i0 i1 j0 j1 hi.1 hj.1 (by rw [pi, pj])
  · rw [e] at hi
    exact absurd hi.2 hi.1

/-- A value inside the 32-bit range is not changed by the wrap-around. -/
theorem wrap32_of_range (x : Int) (h0 : -2147483648 ≤ x) (h1 : x ≤ 2147483647) :
    wrap32 x = x := by
  unfold wrap32
  omega

/-- While `100 * count` fits a 32-bit `int`, the quotient
`100 * count / total_access` is the percentage rounded down. -/
theorem rate_floor (count total : Int) (h0 : 0 ≤ count) (hc : count ≤ 21474836)
    (ht : 0 < total) :
    rate count total = 100 * count / total ∧
      rate count total * total ≤ 100 * count ∧
      100 * count < (rate count total + 1) * total := by
  have e : rate count total = 100 * count / total := by
    unfold rate
    rw [wrap32_of_range _ (by omega) (by omega)]
    exact Int.tdiv_eq_ediv (by omega) (by omega)
  rw [e]
  exact ⟨rfl, Int.ediv_mul_le _ (by omega), Int.lt_ediv_add_one_mul_self _ ht⟩

/-- Beyond that bound the 32-bit product wraps: 21474837 of 21474838 gives
-99, and 42949673 of 42949674 gives 0. -/
theorem rate_wraps_above_bound :
    rate 21474836 21474838 = 99 ∧ rate 21474837 21474838 = -99 ∧
      rate 42949673 42949674 = 0 := by
  decide

/-- The counter `page_faults` counts the translations that took the page-fault branch. -/
theorem page_faults_eq_count (lt lf : Bool) (bs : Int → Int) (s : State) (as : List Int)
    (h : Reachable lt lf bs s) :
    (run lt lf bs s as).page_faults = s.page_faults + faults_in lt lf bs s as := by
  induction as generalizing s with
  | nil =>
    show s.page_faults = s.page_faults + ((0 : Nat) : Int)
    simp
  | cons a rest ih =>
    have hinv := inv_reachable lt lf bs s h
    have hrun : run lt lf bs s (a :: rest) = run lt lf bs (translate lt lf bs s a).1 rest := rfl
    have hcnt : faults_in lt lf bs s (a :: rest) =
        (if page_fault_path s a then 1 else 0) +
          faults_in lt lf bs (translate lt lf bs s a).1 rest := rfl
    rw [hrun, hcnt, ih _ (Reachable.next s a h)]
    by_cases hpt : s.page_table (page_number_of a) = -1
    · rw [if_pos ((page_fault_path_iff bs s hinv a).mpr hpt)]
      rw [(translate_fault lt lf bs s a hinv hpt).2.2.2.2.2.2.2.1]
      push_cast
      omega
    · rw [if_neg (fun hp => hpt ((page_fault_path_iff bs s hinv a).mp hp))]
      rw [(translate_no_fault lt lf bs s a hinv hpt).2.2.2.2.2.2.2.1]
      push_cast
      omega

/-! ## The claims -/

/-- C1: in every state reachable from the initial state by translating any
finite sequence of logical addresses, under either TLB policy and either frame
policy, every valid TLB entry `i` satisfies
`page_table[tlb[i].page_number] == tlb[i].frame_number`. -/
theorem tlb_agrees_with_page_table (USE_LRU_TLB USE_LRU_PAGE_T : Bool)
    (backing_store : Int → Int) (s : State)
    (h : Reachable USE_LRU_TLB USE_LRU_PAGE_T backing_store s)
    (i : Int) (h0 : 0 ≤ i) (h1 : i < TLB_SIZE) (hv : (s.tlb i).valid ≠ 0) :
    s.page_table (s.tlb i).page_number = (s.tlb i).frame_number := by
  rw [TLB_SIZE_cast] at h1
  exact ((inv_reachable _ _ _ s h).tlb_ok i h0 h1 hv).2.2.2

/-- Witness for C1: slot 0 after the single access `5*256`. -/
theorem tlb_agrees_with_page_table_witness :
    (after5.tlb 0).valid ≠ 0 ∧
      after5.page_table (after5.tlb 0).page_number = (after5.tlb 0).frame_number :=
  ⟨by decide,
    tlb_agrees_with_page_table true true store42 after5
      (Reachable.next _ _ (Reachable.start mem0)) 0 (by decide) (by decide) (by decide)⟩

/-- C2: in every reachable state (either frame policy, either TLB policy) the
page table is injective on mapped pages: two different pages of `0..255` that
are both mapped are mapped to different frames. -/
theorem page_table_injective (USE_LRU_TLB USE_LRU_PAGE_T : Bool)
    (backing_store : Int → Int) (s : State)
    (h : Reachable USE_LRU_TLB USE_LRU_PAGE_T backing_store s)
    (P Q : Int) (hP0 : 0 ≤ P) (hP1 : P < PAGE_TABLE_SIZE) (hQ0 : 0 ≤ Q)
    (hQ1 : Q < PAGE_TABLE_SIZE) (hPQ : P ≠ Q)
    (hP : s.page_table P ≠ -1) (hQ : s.page_table Q ≠ -1) :
    s.page_table P ≠ s.page_table Q := by
  rw [PAGE_TABLE_SIZE_cast] at hP1 hQ1
  have _ := hQ
  intro heq
  exact hPQ ((inv_reachable _ _ _ s h).pt_inj P Q hP0 hP1 hQ0 hQ1 hP heq)

/-- Witness for C2: pages 1 and 2 after both have been accessed once. -/
theorem page_table_injective_witness :
    (run true false store42 (init mem0) [page_addr 1, page_addr 2]).page_table 1 ≠ -1 ∧
    (run true false store42 (init mem0) [page_addr 1, page_addr 2]).page_table 2 ≠ -1 ∧
    (run true false store42 (init mem0) [page_addr 1, page_addr 2]).page_table 1 ≠
      (run true false store42 (init mem0) [page_addr 1, page_addr 2]).page_table 2 :=
  ⟨by decide, by decide,
    page_table_injective true false store42 _
      (reachable_run true false store42 _ _ (Reachable.start mem0)) 1 2
      (by decide) (by decide) (by decide) (by decide) (by decide) (by decide) (by decide)⟩

/-- C3: for every reachable state and every logical address `A`, on whichever
of the three paths the translation takes and under both policies, the value
read at the physical address `frame*256 + offset` is the backing-store byte at
index `P*256 + O`, with `P = (A >> 8) & 0xFF` and `O = A & 0xFF` (page reads
deliver all 256 bytes). -/
theorem translate_reads_backing_store (USE_LRU_TLB USE_LRU_PAGE_T : Bool)
    (backing_store : Int → Int) (s : State)
    (h : Reachable USE_LRU_TLB USE_LRU_PAGE_T backing_store s) (A : Int) :
    (translate USE_LRU_TLB USE_LRU_PAGE_T backing_store s A).2.physical_address =
        (translate USE_LRU_TLB USE_LRU_PAGE_T backing_store s A).2.frame_number * 256
          + offset_of A ∧
      (translate USE_LRU_TLB USE_LRU_PAGE_T backing_store s A).2.value =
        (translate USE_LRU_TLB USE_LRU_PAGE_T backing_store s A).1.physical_memory
          (translate USE_LRU_TLB USE_LRU_PAGE_T backing_store s A).2.physical_address ∧
      (translate USE_LRU_TLB USE_LRU_PAGE_T backing_store s A).2.value =
        backing_store (page_number_of A * 256 + offset_of A) := by
  exact ⟨rfl, rfl, translate_value _ _ _ s (inv_reachable _ _ _ s h) A⟩

/-- Witness for C3: reading `5*256` again after it has been loaded gives 42. -/
theorem translate_reads_backing_store_witness :
    (translate true true store42 after5 (5 * 256)).2.value = 42 :=
  (translate_reads_backing_store true true store42 after5
    (Reachable.next _ _ (Reachable.start mem0)) (5 * 256)).2.2

/-- C4 (evaluation of the code at the failing input): with the LRU frame
policy, after pages 0..127 have filled the 128 frames and pages 0..126 have
been accessed again (all but page 127), the fault on page 128 reuses frame 0,
the frame of page 0: page 127 keeps frame 127 and page 0 is unmapped. -/
theorem lru_scenario_evicts_frame_zero :
    (run true true store42 (init mem0) lru_scenario).page_table 128 = 0 ∧
      (run true true store42 (init mem0) lru_scenario).page_table 127 = 127 ∧
      (run true true store42 (init mem0) lru_scenario).page_table 0 = -1 := by
  decide!

/-- C5: under the FIFO frame policy, from the initial state, after accessing
`NUMBER_OF_FRAMES + 1` pairwise distinct pages `p1 .. p(N+1)` in order, page
`p1` had been assigned frame 0, `page_table[p(N+1)]` is frame 0 and
`page_table[p1] == -1`; under either TLB policy. -/
theorem fifo_reuses_first_frame (USE_LRU_TLB : Bool) (backing_store mem : Int → Int)
    (a1 : Int) (mid : List Int) (aN : Int) (hlen : mid.length + 1 = NUMBER_OF_FRAMES)
    (hnd : ((a1 :: (mid ++ [aN])).map page_number_of).Nodup) :
    (run USE_LRU_TLB false backing_store (init mem) [a1]).page_table (page_number_of a1) = 0 ∧
      (run USE_LRU_TLB false backing_store (init mem) (a1 :: (mid ++ [aN]))).page_table
        (page_number_of aN) = 0 ∧
      (run USE_LRU_TLB false backing_store (init mem) (a1 :: (mid ++ [aN]))).page_table
        (page_number_of a1) = -1 := by
  have hlen : mid.length + 1 = 128 := hlen
  have happ : a1 :: (mid ++ [aN]) = (a1 :: mid) ++ [aN] := rfl
  rw [happ] at hnd ⊢
  rw [List.map_append, List.nodup_append] at hnd
  obtain ⟨hnd1, _, hdis⟩ := hnd
  have hnew : page_number_of aN ∉ (a1 :: mid).map page_number_of :=
    fun hin => hdis hin (by simp)
  have hne : page_number_of a1 ≠ page_number_of aN := by
    intro he
    apply hnew
    rw [← he]
    simp
  constructor
  · have hnd0 : (([a1] : List Int).map page_number_of).Nodup := by simp
    obtain ⟨_, _, i3, _⟩ := fill_frames USE_LRU_TLB false backing_store mem [a1] hnd0
      (by simp)
    simpa using i3 0 a1 (by simp)
  · obtain ⟨i1, i2, i3, i4⟩ := fill_frames USE_LRU_TLB false backing_store mem (a1 :: mid) hnd1
      (by simp; omega)
    have hp1 := i3 0 a1 (by simp)
    have hpN := i4 _ hnew
    have hinv := inv_reachable USE_LRU_TLB false backing_store _
      (reachable_run USE_LRU_TLB false backing_store _ (a1 :: mid) (Reachable.start mem))
    have hrun : run USE_LRU_TLB false backing_store (init mem) ((a1 :: mid) ++ [aN]) =
        (translate USE_LRU_TLB false backing_store
          (run USE_LRU_TLB false backing_store (init mem) (a1 :: mid)) aN).1 := by
      rw [run_append]; rfl
    rw [hrun]
    generalize run USE_LRU_TLB false backing_store (init mem) (a1 :: mid) = s
      at i1 i2 hp1 hpN hinv ⊢
    have hp1 : s.page_table (page_number_of a1) = 0 := by simpa using hp1
    have hfull : ¬ s.next_free_frame < 128 := by
      rw [i1]; simp; omega
    obtain ⟨t1, _⟩ := translate_fault USE_LRU_TLB false backing_store s aN hinv hpN
    rw [get_frame_fifo { tick s with page_faults := s.page_faults + 1 } hfull] at t1
    have hv : ({ tick s with page_faults := s.page_faults + 1 } : State).next_frame_to_evict
        = 0 := i2
    rw [hv] at t1
    rw [t1]
    refine ⟨arr_set_same _ _ _, ?_⟩
    rw [arr_set_other _ _ _ _ hne]
    obtain ⟨r0, r1⟩ := page_number_of_range a1
    rcases invalidate_frame_cases
        { tick s with
          page_faults := s.page_faults + 1
          next_frame_to_evict := Int.tmod (0 + 1) NUMBER_OF_FRAMES } 0 with
      ⟨P, P0, P1, hP, _, e⟩ | ⟨hnone, _⟩
    · have hP : s.page_table P = 0 := hP
      have hPa : page_number_of a1 = P :=
        hinv.pt_inj _ P r0 r1 P0 P1 (by rw [hp1]; norm_num) (by rw [hp1, hP])
      rw [e]
      show arr_set s.page_table P (-1) (page_number_of a1) = -1
      rw [hPa, arr_set_same]
    · exact absurd hp1 (hnone _ r0 r1)

/-- Witness for C5: the pages 0, 1, ..., 128 accessed once each, in order. -/
theorem fifo_reuses_first_frame_witness :
    (run true false store42 (init mem0) [page_addr 0]).page_table
        (page_number_of (page_addr 0)) = 0 ∧
      (run true false store42 (init mem0)
        (page_addr 0 :: ((List.range 127).map (fun k => page_addr (k + 1)) ++
          [page_addr 128]))).page_table (page_number_of (page_addr 128)) = 0 ∧
      (run true false store42 (init mem0)
        (page_addr 0 :: ((List.range 127).map (fun k => page_addr (k + 1)) ++
          [page_addr 128]))).page_table (page_number_of (page_addr 0)) = -1 :=
  fifo_reuses_first_frame true store42 mem0 (page_addr 0)
    ((List.range 127).map (fun k => page_addr (k + 1))) (page_addr 128)
    (by simp [NUMBER_OF_FRAMES]) (by decide!)

/-- C6: for every reachable state and every pair of logical addresses `A`,
`B` with the same page number, translating `A` and then immediately `B` makes
the translation of `B` a TLB hit (`tlb_lookup` returns a frame `!= -1`),
increments `TLB_hits` by exactly one, leaves `page_faults` unchanged and uses
the frame that the translation of `A` used; under both TLB inserts and both
frame policies. -/
theorem repeat_page_hits_tlb (USE_LRU_TLB USE_LRU_PAGE_T : Bool)
    (backing_store : Int → Int) (s : State)
    (h : Reachable USE_LRU_TLB USE_LRU_PAGE_T backing_store s) (A B : Int)
    (hAB : page_number_of A = page_number_of B) :
    (tlb_lookup (tick (translate USE_LRU_TLB USE_LRU_PAGE_T backing_store s A).1)
        (page_number_of B)).2 ≠ -1 ∧
      (translate USE_LRU_TLB USE_LRU_PAGE_T backing_store
          (translate USE_LRU_TLB USE_LRU_PAGE_T backing_store s A).1 B).1.TLB_hits =
        (translate USE_LRU_TLB USE_LRU_PAGE_T backing_store s A).1.TLB_hits + 1 ∧
      (translate USE_LRU_TLB USE_LRU_PAGE_T backing_store
          (translate USE_LRU_TLB USE_LRU_PAGE_T backing_store s A).1 B).1.page_faults =
        (translate USE_LRU_TLB USE_LRU_PAGE_T backing_store s A).1.page_faults ∧
      (translate USE_LRU_TLB USE_LRU_PAGE_T backing_store
          (translate USE_LRU_TLB USE_LRU_PAGE_T backing_store s A).1 B).2.frame_number =
        (translate USE_LRU_TLB USE_LRU_PAGE_T backing_store s A).2.frame_number := by
  obtain ⟨hi, hpt, _, _, _, k, k0, k1, km⟩ :=
    resolve_spec USE_LRU_TLB USE_LRU_PAGE_T backing_store (tick s)
      (inv_tick _ s (inv_reachable _ _ _ s h)) (page_number_of A)
      (page_number_of_range A).1 (page_number_of_range A).2
  -- name the state and the frame after the first translation
  have hs1 : (translate USE_LRU_TLB USE_LRU_PAGE_T backing_store s A).1 =
      (resolve USE_LRU_TLB USE_LRU_PAGE_T backing_store (tick s) (page_number_of A)).1 := rfl
  have hf1 : (translate USE_LRU_TLB USE_LRU_PAGE_T backing_store s A).2.frame_number =
      (resolve USE_LRU_TLB USE_LRU_PAGE_T backing_store (tick s) (page_number_of A)).2 := rfl
  rw [hs1, hf1]
  generalize (resolve USE_LRU_TLB USE_LRU_PAGE_T backing_store (tick s)
    (page_number_of A)).1 = s1 at hi hpt km ⊢
  generalize (resolve USE_LRU_TLB USE_LRU_PAGE_T backing_store (tick s)
    (page_number_of A)).2 = f1 at hpt ⊢
  rw [hAB] at hpt km
  rcases tlb_lookup_cases (tick s1) (page_number_of B) with ⟨j, j0, j1, jm, _, e⟩ | ⟨hmiss, _⟩
  · have jm : tlb_match s1.tlb (page_number_of B) j := jm
    obtain ⟨_, _, c, d⟩ := hi.tlb_ok j j0 j1 jm.1
    have hjf : (s1.tlb j).frame_number = f1 := by rw [← d, jm.2]; exact hpt
    have hjf2 : ((tick s1).tlb j).frame_number = f1 := hjf
    have hres := resolve_hit USE_LRU_TLB USE_LRU_PAGE_T backing_store (tick s1) _
      (page_number_of B) _ e c
    have htr : (translate USE_LRU_TLB USE_LRU_PAGE_T backing_store s1 B).1 =
        (resolve USE_LRU_TLB USE_LRU_PAGE_T backing_store (tick s1) (page_number_of B)).1 := rfl
    have hfr : (translate USE_LRU_TLB USE_LRU_PAGE_T backing_store s1 B).2.frame_number =
        (resolve USE_LRU_TLB USE_LRU_PAGE_T backing_store (tick s1) (page_number_of B)).2 := rfl
    rw [htr, hfr, hres, e]
    exact ⟨by rw [hjf2, ← hjf]; exact c, rfl, rfl, hjf2⟩
  · exact absurd km (hmiss k k0 k1)

/-- Witness for C6: the address `5*256` twice from the initial state. -/
theorem repeat_page_hits_tlb_witness :
    (tlb_lookup (tick (translate true true store42 (init mem0) (5 * 256)).1)
        (page_number_of (5 * 256 + 1))).2 ≠ -1 ∧
      (translate true true store42
          (translate true true store42 (init mem0) (5 * 256)).1 (5 * 256 + 1)).1.TLB_hits =
        (translate true true store42 (init mem0) (5 * 256)).1.TLB_hits + 1 ∧
      (translate true true store42
          (translate true true store42 (init mem0) (5 * 256)).1 (5 * 256 + 1)).1.page_faults =
        (translate true true store42 (init mem0) (5 * 256)).1.page_faults ∧
      (translate true true store42
          (translate true true store42 (init mem0) (5 * 256)).1
          (5 * 256 + 1)).2.frame_number =
        (translate true true store42 (init mem0) (5 * 256)).2.frame_number :=
  repeat_page_hits_tlb true true store42 (init mem0) (Reachable.start mem0) (5 * 256)
    (5 * 256 + 1) (by decide)

/-- C7: for every state and logical address whose translation is a TLB hit,
the step leaves `page_table`, `next_free_frame`, `next_frame_to_evict`,
`frame_age`, physical memory, `page_faults` and the FIFO cursor `tlb_next`
unchanged, and the TLB differs from before only in the age field of the single
matched entry: no slot's `page_number`, `frame_number` or `valid` changes. -/
theorem tlb_hit_touches_only_age (USE_LRU_TLB USE_LRU_PAGE_T : Bool)
    (backing_store : Int → Int) (s : State) (A : Int)
    (hhit : (tlb_lookup (tick s) (page_number_of A)).2 ≠ -1) :
    (translate USE_LRU_TLB USE_LRU_PAGE_T backing_store s A).1.page_table = s.page_table ∧
    (translate USE_LRU_TLB USE_LRU_PAGE_T backing_store s A).1.next_free_frame
      = s.next_free_frame ∧
    (translate USE_LRU_TLB USE_LRU_PAGE_T backing_store s A).1.next_frame_to_evict
      = s.next_frame_to_evict ∧
    (translate USE_LRU_TLB USE_LRU_PAGE_T backing_store s A).1.frame_age = s.frame_age ∧
    (translate USE_LRU_TLB USE_LRU_PAGE_T backing_store s A).1.physical_memory
      = s.physical_memory ∧
    (translate USE_LRU_TLB USE_LRU_PAGE_T backing_store s A).1.page_faults = s.page_faults ∧
    (translate USE_LRU_TLB USE_LRU_PAGE_T backing_store s A).1.tlb_next = s.tlb_next ∧
    ∃ k : Int, 0 ≤ k ∧ k < TLB_SIZE ∧
      ((s.tlb k).valid ≠ 0 ∧ (s.tlb k).page_number = page_number_of A) ∧
      (translate USE_LRU_TLB USE_LRU_PAGE_T backing_store s A).1.tlb =
        arr_set s.tlb k { s.tlb k with age := s.elapsed_time + 1 } ∧
      ∀ i : Int,
        (i ≠ k → (translate USE_LRU_TLB USE_LRU_PAGE_T backing_store s A).1.tlb i = s.tlb i) ∧
        ((translate USE_LRU_TLB USE_LRU_PAGE_T backing_store s A).1.tlb i).page_number
          = (s.tlb i).page_number ∧
        ((translate USE_LRU_TLB USE_LRU_PAGE_T backing_store s A).1.tlb i).frame_number
          = (s.tlb i).frame_number ∧
        ((translate USE_LRU_TLB USE_LRU_PAGE_T backing_store s A).1.tlb i).valid
          = (s.tlb i).valid := by
  have htr : (translate USE_LRU_TLB USE_LRU_PAGE_T backing_store s A).1 =
      (resolve USE_LRU_TLB USE_LRU_PAGE_T backing_store (tick s) (page_number_of A)).1 := rfl
  rw [htr]
  rcases tlb_lookup_cases (tick s) (page_number_of A) with ⟨k, k0, k1, km, _, e⟩ | ⟨_, e⟩
  · rw [e] at hhit
    rw [resolve_hit USE_LRU_TLB USE_LRU_PAGE_T backing_store (tick s) _ _ _ e hhit]
    refine ⟨rfl, rfl, rfl, rfl, rfl, rfl, rfl, k, k0, by rw [TLB_SIZE_cast]; exact k1, km,
      rfl, ?_⟩
    intro i
    show (i ≠ k → arr_set s.tlb k { s.tlb k with age := s.elapsed_time + 1 } i = s.tlb i) ∧
      (arr_set s.tlb k { s.tlb k with age := s.elapsed_time + 1 } i).page_number
        = (s.tlb i).page_number ∧
      (arr_set s.tlb k { s.tlb k with age := s.elapsed_time + 1 } i).frame_number
        = (s.tlb i).frame_number ∧
      (arr_set s.tlb k { s.tlb k with age := s.elapsed_time + 1 } i).valid = (s.tlb i).valid
    by_cases hik : i = k
    · rw [hik, arr_set_same]
      exact ⟨fun hne => absurd rfl hne, rfl, rfl, rfl⟩
    · rw [arr_set_other _ _ _ _ hik]
      exact ⟨fun _ => rfl, rfl, rfl, rfl⟩
  · rw [e] at hhit
    exact absurd rfl hhit

/-- Witness for C7: the second access to page 5 is a TLB hit. -/
theorem tlb_hit_touches_only_age_witness :
    (tlb_lookup (tick after5) (page_number_of (5 * 256))).2 ≠ -1 ∧
      (translate true true store42 after5 (5 * 256)).1.page_table = after5.page_table ∧
      (translate true true store42 after5 (5 * 256)).1.page_faults = after5.page_faults :=
  ⟨by decide,
    (tlb_hit_touches_only_age true true store42 after5 (5 * 256) (by decide)).1,
    (tlb_hit_touches_only_age true true store42 after5 (5 * 256) (by decide)).2.2.2.2.2.1⟩

/-- C8: for every backing store and every logical address `A` in `0..65535`,
the run from the initial state on the one-element sequence `[A]` ends with
`total_access = 1`, `page_faults = 1`, `TLB_hits = 0`, prints the value of the
backing-store byte at index `A`, and computes a page-fault rate of 100 and a
TLB-hit rate of 0; under every choice of the two policies. -/
theorem single_access_run (USE_LRU_TLB USE_LRU_PAGE_T : Bool)
    (backing_store mem : Int → Int) (A : Int) (h0 : 0 ≤ A) (h1 : A ≤ 65535) :
    (run USE_LRU_TLB USE_LRU_PAGE_T backing_store (init mem) [A]).total_access = 1 ∧
      (run USE_LRU_TLB USE_LRU_PAGE_T backing_store (init mem) [A]).page_faults = 1 ∧
      (run USE_LRU_TLB USE_LRU_PAGE_T backing_store (init mem) [A]).TLB_hits = 0 ∧
      (trace USE_LRU_TLB USE_LRU_PAGE_T backing_store (init mem) [A]).map Access.value
        = [backing_store A] ∧
      statistics (run USE_LRU_TLB USE_LRU_PAGE_T backing_store (init mem) [A])
        = some (100, 0) := by
  have hrun : run USE_LRU_TLB USE_LRU_PAGE_T backing_store (init mem) [A] =
      (translate USE_LRU_TLB USE_LRU_PAGE_T backing_store (init mem) A).1 := rfl
  have htrace : (trace USE_LRU_TLB USE_LRU_PAGE_T backing_store (init mem) [A]).map
      Access.value = [(translate USE_LRU_TLB USE_LRU_PAGE_T backing_store (init mem) A).2.value]
      := rfl
  obtain ⟨_, _, _, _, _, _, _, t8, t9, t10, _⟩ :=
    translate_fault USE_LRU_TLB USE_LRU_PAGE_T backing_store (init mem) A
      (inv_init backing_store mem) rfl
  have hv := translate_value USE_LRU_TLB USE_LRU_PAGE_T backing_store (init mem)
    (inv_init backing_store mem) A
  rw [decompose_lossless A h0 h1] at hv
  have e1 : (translate USE_LRU_TLB USE_LRU_PAGE_T backing_store (init mem) A).1.total_access
      = 1 := by rw [t10]; rfl
  have e2 : (translate USE_LRU_TLB USE_LRU_PAGE_T backing_store (init mem) A).1.page_faults
      = 1 := by rw [t8]; rfl
  have e3 : (translate USE_LRU_TLB USE_LRU_PAGE_T backing_store (init mem) A).1.TLB_hits
      = 0 := by rw [t9]; rfl
  rw [hrun, htrace, hv]
  refine ⟨e1, e2, e3, rfl, ?_⟩
  unfold statistics
  rw [e1, e2, e3]
  rfl

/-- Witness for C8: backing store all zero except byte 0 of page 5, which is
42; the address `5*256+0` reads 42. -/
theorem single_access_run_witness :
    (run true true store42 (init mem0) [5 * 256]).total_access = 1 ∧
      (run true true store42 (init mem0) [5 * 256]).page_faults = 1 ∧
      (run true true store42 (init mem0) [5 * 256]).TLB_hits = 0 ∧
      (trace true true store42 (init mem0) [5 * 256]).map Access.value = [42] ∧
      statistics (run true true store42 (init mem0) [5 * 256]) = some (100, 0) :=
  single_access_run true true store42 mem0 (5 * 256) (by decide) (by decide)

/-- C9: `tlb_insert_lru` writes `(page, frame, valid = 1, age = elapsed_time)`
into one slot `k` and changes nothing else; if some entry is invalid, `k` is
the lowest-index invalid entry; otherwise `k` is the lowest index whose age is
minimal over all `TLB_SIZE` entries.  (Ages are C `int`s, so none exceeds
`__INT32_MAX__`.) -/
theorem tlb_insert_lru_slot (s : State) (page_number frame_number : Int)
    (hage : ∀ i : Int, 0 ≤ i → i < TLB_SIZE → (s.tlb i).age ≤ INT32_MAX) :
    ∃ k : Int, 0 ≤ k ∧ k < TLB_SIZE ∧
      tlb_insert_lru s page_number frame_number =
        { s with
          tlb := arr_set s.tlb k
            { page_number := page_number, frame_number := frame_number, valid := 1,
              age := s.elapsed_time } } ∧
      ((∃ i : Int, 0 ≤ i ∧ i < TLB_SIZE ∧ (s.tlb i).valid = 0) →
        (s.tlb k).valid = 0 ∧ ∀ j : Int, 0 ≤ j → j < k → (s.tlb j).valid ≠ 0) ∧
      ((∀ i : Int, 0 ≤ i → i < TLB_SIZE → (s.tlb i).valid ≠ 0) →
        (∀ j : Int, 0 ≤ j → j < TLB_SIZE → (s.tlb k).age ≤ (s.tlb j).age) ∧
        ∀ j : Int, 0 ≤ j → j < k → (s.tlb k).age < (s.tlb j).age) := by
  obtain ⟨k, k0, k1, e, hk⟩ := tlb_insert_lru_loop_slot s page_number frame_number TLB_SIZE 0
    INT32_MAX 0 (le_refl _) (fun j j0 j1 => by omega) (le_refl _) (le_refl _)
    (fun j j0 j1 => by omega) (fun j j0 j1 => by omega) (fun h => by omega) (fun _ => rfl)
    (hage 0 (le_refl _) (by rw [TLB_SIZE_cast]; norm_num)) (by rw [TLB_SIZE_cast]; norm_num)
  rw [zero_add] at k1 hk
  refine ⟨k, k0, k1, e, ?_, ?_⟩
  · rintro ⟨i, i0, i1, iv⟩
    rcases hk with h1 | ⟨h2, _, _⟩
    · exact h1
    · exact absurd iv (h2 i i0 i1)
  · intro hall
    rcases hk with ⟨h1, _⟩ | ⟨_, h2, h3⟩
    · exact absurd h1 (hall k k0 k1)
    · exact ⟨h2, h3⟩

/-- Witness for C9: inserting into the empty TLB of the initial state. -/
theorem tlb_insert_lru_slot_witness :
    ∃ k : Int, 0 ≤ k ∧ k < TLB_SIZE ∧
      tlb_insert_lru (init mem0) 5 0 =
        { init mem0 with
          tlb := arr_set (init mem0).tlb k
            { page_number := 5, frame_number := 0, valid := 1,
              age := (init mem0).elapsed_time } } ∧
      ((∃ i : Int, 0 ≤ i ∧ i < TLB_SIZE ∧ ((init mem0).tlb i).valid = 0) →
        ((init mem0).tlb k).valid = 0 ∧ ∀ j : Int, 0 ≤ j → j < k → ((init mem0).tlb j).valid ≠ 0) ∧
      ((∀ i : Int, 0 ≤ i → i < TLB_SIZE → ((init mem0).tlb i).valid ≠ 0) →
        (∀ j : Int, 0 ≤ j → j < TLB_SIZE → ((init mem0).tlb k).age ≤ ((init mem0).tlb j).age) ∧
        ∀ j : Int, 0 ≤ j → j < k → ((init mem0).tlb k).age < ((init mem0).tlb j).age) :=
  tlb_insert_lru_slot (init mem0) 5 0
    (fun _ _ _ => (by decide : (0 : Int) ≤ 2147483647))

/-- C10: if some valid entry has `page_number == p`, `tlb_lookup` returns the
`frame_number` of the lowest-index such entry, sets that entry's age to
`elapsed_time` and changes nothing else; if no valid entry has
`page_number == p`, it returns `-1` and leaves the whole TLB (and state)
unchanged. -/
theorem tlb_lookup_contract (s : State) (p : Int) :
    ((∃ i : Int, 0 ≤ i ∧ i < TLB_SIZE ∧ (s.tlb i).valid ≠ 0 ∧ (s.tlb i).page_number = p) →
      ∃ k : Int, 0 ≤ k ∧ k < TLB_SIZE ∧ ((s.tlb k).valid ≠ 0 ∧ (s.tlb k).page_number = p) ∧
        (∀ j : Int, 0 ≤ j → j < k → ¬ ((s.tlb j).valid ≠ 0 ∧ (s.tlb j).page_number = p)) ∧
        (tlb_lookup s p).2 = (s.tlb k).frame_number ∧
        (tlb_lookup s p).1 =
          { s with tlb := arr_set s.tlb k { s.tlb k with age := s.elapsed_time } }) ∧
    ((∀ i : Int, 0 ≤ i → i < TLB_SIZE → ¬ ((s.tlb i).valid ≠ 0 ∧ (s.tlb i).page_number = p)) →
      (tlb_lookup s p).2 = -1 ∧ (tlb_lookup s p).1 = s) := by
  rw [TLB_SIZE_cast]
  constructor
  · rintro ⟨i, i0, i1, hm⟩
    rcases tlb_lookup_cases s p with ⟨k, k0, k1, km, kf, e⟩ | ⟨hmiss, _⟩
    · exact ⟨k, k0, k1, km, kf, by rw [e], by rw [e]⟩
    · exact absurd hm (hmiss i i0 i1)
  · intro hnone
    rcases tlb_lookup_cases s p with ⟨k, k0, k1, km, _, _⟩ | ⟨_, e⟩
    · exact absurd km (hnone k k0 k1)
    · exact ⟨by rw [e], by rw [e]⟩

/-- C11: for every TLB state, cursor value `c` in `0..TLB_SIZE-1`, page and
frame, `tlb_insert` sets slot `c` to `valid = 1` with the given `page_number`
and `frame_number` (whatever the slot held; its age is kept), leaves every
other slot unchanged and sets the cursor to `(c + 1) mod TLB_SIZE`; hence
`TLB_SIZE` consecutive inserts write insert number `k` into slot
`(c + k) mod TLB_SIZE`, which hits every slot exactly once, and return the
cursor to `c`. -/
theorem tlb_insert_fifo (s : State) (page_number frame_number : Int)
    (ps : List (Int × Int))
    (hc0 : 0 ≤ s.tlb_next) (hc1 : s.tlb_next < TLB_SIZE) (hlen : ps.length = TLB_SIZE) :
    (tlb_insert s page_number frame_number).tlb s.tlb_next =
        { s.tlb s.tlb_next with
          valid := 1, page_number := page_number, frame_number := frame_number } ∧
      (∀ i : Int, i ≠ s.tlb_next →
        (tlb_insert s page_number frame_number).tlb i = s.tlb i) ∧
      (tlb_insert s page_number frame_number).tlb_next = (s.tlb_next + 1) % TLB_SIZE ∧
      (tlb_insert_seq s ps).tlb_next = s.tlb_next ∧
      (∀ (k : Nat) (x : Int × Int), ps[k]? = some x →
        (tlb_insert_seq s (ps.take k)).tlb_next = (s.tlb_next + k) % TLB_SIZE ∧
        (tlb_insert_seq s ps).tlb ((s.tlb_next + k) % TLB_SIZE) =
          { s.tlb ((s.tlb_next + k) % TLB_SIZE) with
            valid := 1, page_number := x.1, frame_number := x.2 }) ∧
      (∀ i : Int, 0 ≤ i → i < TLB_SIZE →
        ∃! k : Nat, k < TLB_SIZE ∧ (s.tlb_next + k) % TLB_SIZE = i) := by
  have hT : TLB_SIZE = 16 := rfl
  rw [TLB_SIZE_cast] at hc1 ⊢
  rw [hT] at hlen ⊢
  obtain ⟨a, b, _⟩ := tlb_insert_seq_spec ps s hc0 hc1 (by omega)
  refine ⟨arr_set_same _ _ _, fun i hi => arr_set_other _ _ _ _ hi,
    tlb_insert_cursor s _ _ hc0, ?_, ?_, ?_⟩
  · rw [a, hlen]; push_cast; omega
  · intro k x hx
    have hk : k < ps.length := by
      rcases List.getElem?_eq_some.mp hx with ⟨h, _⟩
      exact h
    obtain ⟨a2, _, _⟩ := tlb_insert_seq_spec (ps.take k) s hc0 hc1 (by simp; omega)
    refine ⟨?_, b k x hx⟩
    rw [a2]
    simp only [List.length_take]
    rw [min_eq_left (by omega)]
  · intro i i0 i1
    refine ⟨((i - s.tlb_next) % 16).toNat, ⟨by omega, by omega⟩, ?_⟩
    rintro k ⟨hk, hk2⟩
    omega

/-- Witness for C11: sixteen inserts into the TLB of the initial state. -/
theorem tlb_insert_fifo_witness :
    (tlb_insert_seq (init mem0) sixteen_pairs).tlb_next = (init mem0).tlb_next :=
  (tlb_insert_fifo (init mem0) 7 3 sixteen_pairs (by decide) (by decide) (by decide)).2.2.2.1

/-- C12: for every logical address `A`, `page_number = (A >> 8) & 0xFF` and
`offset = A & 0xFF` both lie in `0..255`, and for every `A` in `0..65535` the
decomposition is lossless: `page_number * 256 + offset == A`. -/
theorem address_decomposition (A : Int) :
    (0 ≤ page_number_of A ∧ page_number_of A < 256 ∧
      0 ≤ offset_of A ∧ offset_of A < 256) ∧
    (0 ≤ A → A ≤ 65535 → page_number_of A * 256 + offset_of A = A) :=
  ⟨⟨(page_number_of_range A).1, (page_number_of_range A).2, (offset_of_range A).1,
      (offset_of_range A).2⟩,
    decompose_lossless A⟩

/-- Witness for C12: the address `5*256 + 5`. -/
theorem address_decomposition_witness :
    page_number_of 1285 * 256 + offset_of 1285 = 1285 :=
  (address_decomposition 1285).2 (by decide) (by decide)

/-- C13: starting from the initial state, for every address sequence, if the
next translation is a page fault and fewer than `NUMBER_OF_FRAMES` page faults
have happened so far, say `k - 1` of them, then this `k`-th page fault is
assigned frame `k - 1` and is served by the free-frame branch:
`next_free_frame < NUMBER_OF_FRAMES`, so neither a victim-selection function
nor `invalidate_frame` is called. -/
theorem free_frames_in_increasing_order (USE_LRU_TLB USE_LRU_PAGE_T : Bool)
    (backing_store mem : Int → Int) (addresses : List Int) (A : Int)
    (hf : page_fault_path
      (run USE_LRU_TLB USE_LRU_PAGE_T backing_store (init mem) addresses) A)
    (hk : faults_in USE_LRU_TLB USE_LRU_PAGE_T backing_store (init mem) addresses
      < NUMBER_OF_FRAMES) :
    (run USE_LRU_TLB USE_LRU_PAGE_T backing_store (init mem) addresses).page_faults =
        faults_in USE_LRU_TLB USE_LRU_PAGE_T backing_store (init mem) addresses ∧
      (translate USE_LRU_TLB USE_LRU_PAGE_T backing_store
          (run USE_LRU_TLB USE_LRU_PAGE_T backing_store (init mem) addresses) A).2.frame_number
        = faults_in USE_LRU_TLB USE_LRU_PAGE_T backing_store (init mem) addresses ∧
      (run USE_LRU_TLB USE_LRU_PAGE_T backing_store (init mem) addresses).next_free_frame
        < NUMBER_OF_FRAMES ∧
      get_frame USE_LRU_PAGE_T
          { tick (run USE_LRU_TLB USE_LRU_PAGE_T backing_store (init mem) addresses) with
            page_faults :=
              (run USE_LRU_TLB USE_LRU_PAGE_T backing_store (init mem) addresses).page_faults
                + 1 } =
        ({ tick (run USE_LRU_TLB USE_LRU_PAGE_T backing_store (init mem) addresses) with
            page_faults :=
              (run USE_LRU_TLB USE_LRU_PAGE_T backing_store (init mem) addresses).page_faults
                + 1
            next_free_frame :=
              (run USE_LRU_TLB USE_LRU_PAGE_T backing_store (init mem) addresses).next_free_frame
                + 1 },
          (run USE_LRU_TLB USE_LRU_PAGE_T backing_store (init mem) addresses).next_free_frame)
      := by
  have hr := reachable_run USE_LRU_TLB USE_LRU_PAGE_T backing_store (init mem) addresses
    (Reachable.start mem)
  have hcount := page_faults_eq_count USE_LRU_TLB USE_LRU_PAGE_T backing_store (init mem)
    addresses (Reachable.start mem)
  have hcount : (run USE_LRU_TLB USE_LRU_PAGE_T backing_store (init mem) addresses).page_faults
      = faults_in USE_LRU_TLB USE_LRU_PAGE_T backing_store (init mem) addresses := by
    rw [hcount]
    show (0 : Int) + _ = _
    omega
  rw [← hcount]
  have hk : (run USE_LRU_TLB USE_LRU_PAGE_T backing_store (init mem) addresses).page_faults
      < 128 := by
    rw [hcount]
    have : ((NUMBER_OF_FRAMES : Nat) : Int) = 128 := rfl
    omega
  rw [NUMBER_OF_FRAMES_cast]
  generalize run USE_LRU_TLB USE_LRU_PAGE_T backing_store (init mem) addresses = s
    at hf hr hk ⊢
  have hinv := inv_reachable _ _ _ s hr
  have hpt := (page_fault_path_iff backing_store s hinv A).mp hf
  obtain ⟨_, _, c3, c4⟩ := reachable_counts _ _ _ s hr
  have hlt : s.next_free_frame < 128 := by omega
  have hnff : s.next_free_frame = s.page_faults := by omega
  obtain ⟨_, t2, _⟩ :=
    translate_fault USE_LRU_TLB USE_LRU_PAGE_T backing_store s A hinv hpt
  have hg := get_frame_free USE_LRU_PAGE_T { tick s with page_faults := s.page_faults + 1 } hlt
  rw [hg] at t2
  exact ⟨rfl, by rw [t2]; exact hnff, hlt, hg⟩

/-- Witness for C13: after the two faults on pages 1 and 2, the fault on page 3
is the third one and gets frame 2. -/
theorem free_frames_in_increasing_order_witness :
    (translate true true store42
        (run true true store42 (init mem0) [page_addr 1, page_addr 2])
        (page_addr 3)).2.frame_number
      = faults_in true true store42 (init mem0) [page_addr 1, page_addr 2] :=
  (free_frames_in_increasing_order true true store42 mem0 [page_addr 1, page_addr 2]
    (page_addr 3) (by decide) (by decide)).2.1

/-- C14 (evaluation of the code at the failing input): the single access
`5*256` from the initial state takes the page-fault path and is given frame 0;
afterwards `page_table[5] == 0` and `free_frame_list[0] == 1`, but
`frame_age[0]` is still 0 while `elapsed_time` is 1. -/
theorem fault_in_leaves_frame_age_unset :
    page_fault_path (init mem0) (5 * 256) ∧
      (translate true true store42 (init mem0) (5 * 256)).2.frame_number = 0 ∧
      (translate true true store42 (init mem0) (5 * 256)).1.page_table 5 = 0 ∧
      (translate true true store42 (init mem0) (5 * 256)).1.free_frame_list 0 = 1 ∧
      (translate true true store42 (init mem0) (5 * 256)).1.elapsed_time = 1 ∧
      (translate true true store42 (init mem0) (5 * 256)).1.frame_age 0 = 0 := by
  decide

/-- C15: for every state whose page table is injective on mapped pages and
every frame `f`, applying `invalidate_frame(f)` twice yields the same state as
applying it once; when no page of `0..255` maps to `f` the whole state is
unchanged, and when no page that maps to `f` has a valid TLB entry the TLB is
unchanged. -/
theorem invalidate_frame_idempotent (s : State) (f : Int)
    (hinj : ∀ P Q : Int, 0 ≤ P → P < PAGE_TABLE_SIZE → 0 ≤ Q → Q < PAGE_TABLE_SIZE → P ≠ Q →
      s.page_table P ≠ -1 → s.page_table Q ≠ -1 → s.page_table P ≠ s.page_table Q) :
    invalidate_frame (invalidate_frame s f) f = invalidate_frame s f ∧
      ((∀ P : Int, 0 ≤ P → P < PAGE_TABLE_SIZE → s.page_table P ≠ f) →
        invalidate_frame s f = s) ∧
      ((∀ P : Int, 0 ≤ P → P < PAGE_TABLE_SIZE → s.page_table P = f →
          ∀ i : Int, 0 ≤ i → i < TLB_SIZE →
            ¬ ((s.tlb i).valid ≠ 0 ∧ (s.tlb i).page_number = P)) →
        (invalidate_frame s f).tlb = s.tlb) := by
  rw [PAGE_TABLE_SIZE_cast, TLB_SIZE_cast] at *
  rcases invalidate_frame_cases s f with ⟨P, P0, P1, hP, hfirst, e⟩ | ⟨hnone, e⟩
  · refine ⟨?_, fun hno => absurd hP (hno P P0 P1), ?_⟩
    · rw [e]
      rcases invalidate_frame_cases
          { s with
            page_table := arr_set s.page_table P (-1)
            tlb := invalidate_tlb_loop P TLB_SIZE 0 s.tlb } f with
        ⟨Q, Q0, Q1, hQ, hQfirst, e2⟩ | ⟨_, e2⟩
      · have hQ : arr_set s.page_table P (-1) Q = f := hQ
        have hQfirst : ∀ R, 0 ≤ R → R < Q → arr_set s.page_table P (-1) R ≠ f := hQfirst
        have hQP : Q = P := by
          by_contra hne
          rw [arr_set_other _ _ _ _ hne] at hQ
          by_cases hf : f = -1
          · have hPQ : ¬ P < Q := by
              intro hlt
              apply hQfirst P P0 hlt
              rw [arr_set_same, hf]
            exact hfirst Q Q0 (by omega) hQ
          · exact hinj P Q P0 P1 Q0 Q1 (fun h => hne h.symm) (by rw [hP]; exact hf)
              (by rw [hQ]; exact hf) (by rw [hP, hQ])
        rw [e2, hQP]
        show ({ s with
            page_table := arr_set (arr_set s.page_table P (-1)) P (-1)
            tlb := invalidate_tlb_loop P TLB_SIZE 0 (invalidate_tlb_loop P TLB_SIZE 0 s.tlb) }
            : State) = _
        rw [arr_set_idem, invalidate_tlb_loop_idem]
      · exact e2
    · intro hno
      rw [e]
      exact invalidate_tlb_loop_absent P s.tlb (hno P P0 P1 hP)
  · rw [e]
    exact ⟨e, fun _ => rfl, fun _ => rfl⟩

/-- Witness for C15: the state after one access, whose page table maps page 5
to frame 0 and nothing else. -/
theorem invalidate_frame_idempotent_witness :
    invalidate_frame (invalidate_frame after5 0) 0 = invalidate_frame after5 0 :=
  (invalidate_frame_idempotent after5 0
    (injective_on_mapped_pages true true store42 after5
      (Reachable.next _ _ (Reachable.start mem0)))).1

/-- C16 (evaluation of the code at the failing input): on the empty address
sequence the loop body never runs, `total_access` is still 0 when the two
rates are computed, and both divisions are divisions by zero: the statistics
step has no result. -/
theorem empty_input_divides_by_zero (USE_LRU_TLB USE_LRU_PAGE_T : Bool)
    (backing_store mem : Int → Int) :
    (run USE_LRU_TLB USE_LRU_PAGE_T backing_store (init mem) []).total_access = 0 ∧
      statistics (run USE_LRU_TLB USE_LRU_PAGE_T backing_store (init mem) []) = none :=
  ⟨rfl, rfl⟩

/-- C17: in every reachable state in which a page fault takes the eviction
branch (`next_free_frame == NUMBER_OF_FRAMES`), under either frame policy, the
victim frame `v` returned by the selection function lies in
`0..NUMBER_OF_FRAMES-1` and exactly one page `P` of `0..255` has
`page_table[P] == v`; `invalidate_frame(v)` clears that entry and no other. -/
theorem eviction_finds_owner (USE_LRU_TLB USE_LRU_PAGE_T : Bool)
    (backing_store : Int → Int) (s : State)
    (h : Reachable USE_LRU_TLB USE_LRU_PAGE_T backing_store s)
    (hfull : s.next_free_frame = NUMBER_OF_FRAMES) :
    (get_frame USE_LRU_PAGE_T { tick s with page_faults := s.page_faults + 1 }).2 =
        (if USE_LRU_PAGE_T then
          select_victim_frame_lru { tick s with page_faults := s.page_faults + 1 }
        else (select_victim_frame_fifo { tick s with page_faults := s.page_faults + 1 }).2) ∧
      0 ≤ (get_frame USE_LRU_PAGE_T { tick s with page_faults := s.page_faults + 1 }).2 ∧
      (get_frame USE_LRU_PAGE_T { tick s with page_faults := s.page_faults + 1 }).2
        < NUMBER_OF_FRAMES ∧
      ∃ P : Int, 0 ≤ P ∧ P < PAGE_TABLE_SIZE ∧
        s.page_table P =
          (get_frame USE_LRU_PAGE_T { tick s with page_faults := s.page_faults + 1 }).2 ∧
        (∀ Q : Int, 0 ≤ Q → Q < PAGE_TABLE_SIZE →
          s.page_table Q =
            (get_frame USE_LRU_PAGE_T { tick s with page_faults := s.page_faults + 1 }).2 →
          Q = P) ∧
        (get_frame USE_LRU_PAGE_T { tick s with page_faults := s.page_faults + 1 }).1.page_table
          = arr_set s.page_table P (-1) := by
  rw [NUMBER_OF_FRAMES_cast] at hfull ⊢
  rw [PAGE_TABLE_SIZE_cast]
  have hinv := inv_reachable _ _ _ s h
  have hnlt : ¬ ({ tick s with page_faults := s.page_faults + 1 } : State).next_free_frame
      < 128 := by
    show ¬ s.next_free_frame < 128
    omega
  cases USE_LRU_PAGE_T with
  | true =>
    rw [get_frame_lru { tick s with page_faults := s.page_faults + 1 } hnlt]
    obtain ⟨v0, v1⟩ :=
      select_victim_frame_lru_range { tick s with page_faults := s.page_faults + 1 }
    obtain ⟨P, a, b, c, d, e, _⟩ := invalidate_owned backing_store s
      { tick s with page_faults := s.page_faults + 1 } _ hinv rfl v0 (by omega)
    exact ⟨rfl, v0, v1, P, a, b, c, d, e⟩
  | false =>
    rw [get_frame_fifo { tick s with page_faults := s.page_faults + 1 } hnlt]
    obtain ⟨P, a, b, c, d, e, _⟩ := invalidate_owned backing_store s
      { tick s with
        page_faults := s.page_faults + 1
        next_frame_to_evict := Int.tmod (s.next_frame_to_evict + 1) NUMBER_OF_FRAMES }
      s.next_frame_to_evict hinv rfl hinv.ev_lo (by have := hinv.ev_hi; omega)
    exact ⟨rfl, hinv.ev_lo, hinv.ev_hi, P, a, b, c, d, e⟩

/-- Witness for C17: the victim chosen once pages 0..127 occupy all frames. -/
theorem eviction_finds_owner_witness :
    0 ≤ (get_frame true { tick full_state with page_faults := full_state.page_faults + 1 }).2 ∧
      (get_frame true { tick full_state with page_faults := full_state.page_faults + 1 }).2
        < NUMBER_OF_FRAMES :=
  ⟨(eviction_finds_owner true true store42 full_state
      (reachable_run true true store42 (init mem0) _ (Reachable.start mem0))
      (by decide!)).2.1,
    (eviction_finds_owner true true store42 full_state
      (reachable_run true true store42 (init mem0) _ (Reachable.start mem0))
      (by decide!)).2.2.1⟩

/-- C18 (counterexample): one page fault in two accesses, so
`0 <= count < total_access`, yet the rate the program computes is 50, not 0;
the run of the address `5*256` twice produces exactly these rates. -/
theorem rate_is_not_zero_below_total :
    (0 : Int) ≤ 1 ∧ (1 : Int) < 2 ∧ rate 1 2 = 50 ∧ rate 1 2 ≠ 0 ∧
      (run true true store42 (init mem0) [5 * 256, 5 * 256]).page_faults = 1 ∧
      (run true true store42 (init mem0) [5 * 256, 5 * 256]).total_access = 2 ∧
      statistics (run true true store42 (init mem0) [5 * 256, 5 * 256]) = some (50, 50) := by
  decide

/-- C18 (amended): for all counters with `0 <= count <= 21474836` (so that
`100 * count` fits the 32-bit `int`) and `total_access > 0`, the rate the
program computes, the integer expression `100 * count / total_access`, is the
percentage rounded down; it is 0 exactly when `100 * count < total_access`
and non-zero as soon as `100 * count` is not smaller than `total_access`.
These are the two numbers the statistics step produces. -/
theorem rate_zero_iff (count total_access : Int) (h0 : 0 ≤ count) (hc : count ≤ 21474836)
    (ht : 0 < total_access) :
    (rate count total_access = 0 ↔ 100 * count < total_access) ∧
      rate count total_access * total_access ≤ 100 * count ∧
      100 * count < (rate count total_access + 1) * total_access ∧
      (∀ s : State, s.total_access ≠ 0 →
        statistics s = some (rate s.page_faults s.total_access,
          rate s.TLB_hits s.total_access)) := by
  obtain ⟨e, lo, hi⟩ := rate_floor count total_access h0 hc ht
  refine ⟨?_, lo, hi, ?_⟩
  · constructor
    · intro hz
      rw [hz] at hi
      omega
    · intro hlt
      rw [e]
      exact Int.ediv_eq_zero_of_lt (by omega) hlt
  · intro s hs
    unfold statistics
    rw [if_neg hs]

/-- Witness for C18 (amended): one fault in two accesses. -/
theorem rate_zero_iff_witness :
    rate 1 2 * 2 ≤ 100 * 1 ∧ 100 * 1 < (rate 1 2 + 1) * 2 :=
  ⟨(rate_zero_iff 1 2 (by decide) (by decide) (by decide)).2.1,
    (rate_zero_iff 1 2 (by decide) (by decide) (by decide)).2.2.1⟩

/-- C19: in every reachable state and for every logical address `A`, the
frame number used by the translation of `A` lies in `0..NUMBER_OF_FRAMES-1`,
so the physical address `frame*256 + offset` lies in
`0..NUMBER_OF_FRAMES*256-1`, inside the 65536-byte buffer, and the step changes
physical memory at most at the bytes `frame*256 .. frame*256+255`. -/
theorem physical_address_in_bounds (USE_LRU_TLB USE_LRU_PAGE_T : Bool)
    (backing_store : Int → Int) (s : State)
    (h : Reachable USE_LRU_TLB USE_LRU_PAGE_T backing_store s) (A : Int) :
    (0 ≤ (translate USE_LRU_TLB USE_LRU_PAGE_T backing_store s A).2.frame_number ∧
      (translate USE_LRU_TLB USE_LRU_PAGE_T backing_store s A).2.frame_number
        < NUMBER_OF_FRAMES) ∧
    (0 ≤ (translate USE_LRU_TLB USE_LRU_PAGE_T backing_store s A).2.physical_address ∧
      (translate USE_LRU_TLB USE_LRU_PAGE_T backing_store s A).2.physical_address
        < NUMBER_OF_FRAMES * 256 ∧
      (translate USE_LRU_TLB USE_LRU_PAGE_T backing_store s A).2.physical_address < 65536) ∧
    (∀ a : Int,
      (translate USE_LRU_TLB USE_LRU_PAGE_T backing_store s A).1.physical_memory a
        ≠ s.physical_memory a →
      (translate USE_LRU_TLB USE_LRU_PAGE_T backing_store s A).2.frame_number * 256 ≤ a ∧
      a < (translate USE_LRU_TLB USE_LRU_PAGE_T backing_store s A).2.frame_number * 256 + 256 ∧
      0 ≤ a ∧ a < NUMBER_OF_FRAMES * 256) := by
  rw [NUMBER_OF_FRAMES_cast]
  have hinv := inv_reachable _ _ _ s h
  obtain ⟨_, _, f0, f1, _, _⟩ :=
    resolve_spec USE_LRU_TLB USE_LRU_PAGE_T backing_store (tick s) (inv_tick _ s hinv)
      (page_number_of A) (page_number_of_range A).1 (page_number_of_range A).2
  have hfr : (translate USE_LRU_TLB USE_LRU_PAGE_T backing_store s A).2.frame_number =
      (resolve USE_LRU_TLB USE_LRU_PAGE_T backing_store (tick s) (page_number_of A)).2 := rfl
  have hpa : (translate USE_LRU_TLB USE_LRU_PAGE_T backing_store s A).2.physical_address =
      (translate USE_LRU_TLB USE_LRU_PAGE_T backing_store s A).2.frame_number * 256
        + offset_of A := rfl
  rw [← hfr] at f0 f1
  obtain ⟨o0, o1⟩ := offset_of_range A
  refine ⟨⟨f0, f1⟩, ⟨by rw [hpa]; omega, by rw [hpa]; omega, by rw [hpa]; omega⟩, ?_⟩
  intro a ha
  by_cases hpt : s.page_table (page_number_of A) = -1
  · obtain ⟨_, t2, t3, _⟩ :=
      translate_fault USE_LRU_TLB USE_LRU_PAGE_T backing_store s A hinv hpt
    rw [t3] at ha
    rw [t2] at f0 f1 ⊢
    by_cases hw :
        (get_frame USE_LRU_PAGE_T { tick s with page_faults := s.page_faults + 1 }).2 * 256 ≤ a ∧
        a < (get_frame USE_LRU_PAGE_T { tick s with page_faults := s.page_faults + 1 }).2 * 256
          + 256
    · exact ⟨hw.1, hw.2, by omega, by omega⟩
    · exfalso
      apply ha
      unfold fread_page
      rw [if_neg hw]
  · obtain ⟨_, _, t3, _⟩ :=
      translate_no_fault USE_LRU_TLB USE_LRU_PAGE_T backing_store s A hinv hpt
    rw [t3] at ha
    exact absurd rfl ha

/-- Witness for C19: the second access to page 5, a TLB hit on frame 0. -/
theorem physical_address_in_bounds_witness :
    0 ≤ (translate true true store42 after5 (5 * 256)).2.physical_address ∧
      (translate true true store42 after5 (5 * 256)).2.physical_address
        < NUMBER_OF_FRAMES * 256 ∧
      (translate true true store42 after5 (5 * 256)).2.physical_address < 65536 :=
  (physical_address_in_bounds true true store42 after5
    (Reachable.next _ _ (Reachable.start mem0)) (5 * 256)).2.1

/-- C20: in every reachable state, under either TLB policy, no two distinct
valid TLB entries have the same `page_number`; consequently
`invalidate_frame` clears the valid flag of at most one TLB entry, for any
frame, and so does the eviction that `main` performs on a page fault. -/
theorem no_page_cached_twice (USE_LRU_TLB USE_LRU_PAGE_T : Bool)
    (backing_store : Int → Int) (s : State)
    (h : Reachable USE_LRU_TLB USE_LRU_PAGE_T backing_store s) :
    (∀ i j : Int, 0 ≤ i → i < TLB_SIZE → 0 ≤ j → j < TLB_SIZE → i ≠ j →
      (s.tlb i).valid ≠ 0 → (s.tlb j).valid ≠ 0 →
      (s.tlb i).page_number ≠ (s.tlb j).page_number) ∧
    (∀ v i j : Int, 0 ≤ i → i < TLB_SIZE → 0 ≤ j → j < TLB_SIZE →
      ((s.tlb i).valid ≠ 0 ∧ ((invalidate_frame s v).tlb i).valid = 0) →
      ((s.tlb j).valid ≠ 0 ∧ ((invalidate_frame s v).tlb j).valid = 0) → i = j) ∧
    (∀ i j : Int, 0 ≤ i → i < TLB_SIZE → 0 ≤ j → j < TLB_SIZE →
      ((s.tlb i).valid ≠ 0 ∧
        ((get_frame USE_LRU_PAGE_T
          { tick s with page_faults := s.page_faults + 1 }).1.tlb i).valid = 0) →
      ((s.tlb j).valid ≠ 0 ∧
        ((get_frame USE_LRU_PAGE_T
          { tick s with page_faults := s.page_faults + 1 }).1.tlb j).valid = 0) → i = j) := by
  rw [TLB_SIZE_cast]
  have hinv := inv_reachable _ _ _ s h
  refine ⟨?_, ?_, ?_⟩
  · intro i j i0 i1 j0 j1 hij hi hj heq
    exact hij (hinv.tlb_nd i j i0 i1 j0 j1 hi hj heq)
  · intro v i j i0 i1 j0 j1 hi hj
    exact invalidate_clears_at_most_one s v hinv.tlb_nd i j i0 i1 j0 j1 hi hj
  · intro i j i0 i1 j0 j1 hi hj
    by_cases hlt : s.next_free_frame < 128
    · rw [get_frame_free USE_LRU_PAGE_T { tick s with page_faults := s.page_faults + 1 } hlt]
        at hi
      exact absurd hi.2 hi.1
    · cases USE_LRU_PAGE_T with
      | true =>
        rw [get_frame_lru { tick s with page_faults := s.page_faults + 1 } hlt] at hi hj
        exact invalidate_clears_at_most_one
          { tick s with page_faults := s.page_faults + 1 } _ hinv.tlb_nd i j i0 i1 j0 j1 hi hj
      | false =>
        rw [get_frame_fifo { tick s with page_faults := s.page_faults + 1 } hlt] at hi hj
        exact invalidate_clears_at_most_one
          { tick s with
            page_faults := s.page_faults + 1
            next_frame_to_evict := Int.tmod (s.next_frame_to_evict + 1) NUMBER_OF_FRAMES }
          _ hinv.tlb_nd i j i0 i1 j0 j1 hi hj

/-- Witness for C20: after pages 1 and 2 have been accessed, slots 0 and 1 are
both valid and cache different pages. -/
theorem no_page_cached_twice_witness :
    ((run true false store42 (init mem0) [page_addr 1, page_addr 2]).tlb 0).valid ≠ 0 ∧
    ((run true false store42 (init mem0) [page_addr 1, page_addr 2]).tlb 1).valid ≠ 0 ∧
    ((run true false store42 (init mem0) [page_addr 1, page_addr 2]).tlb 0).page_number ≠
      ((run true false store42 (init mem0) [page_addr 1, page_addr 2]).tlb 1).page_number :=
  ⟨by decide, by decide,
    (no_page_cached_twice true false store42 _
      (reachable_run true false store42 _ _ (Reachable.start mem0))).1 0 1
      (by decide) (by decide) (by decide) (by decide) (by decide) (by decide) (by decide)⟩

end VM
